import Mathlib

/-!
BrunoCoin: a shallow embedding of the block store (`pkg/blockchain/blockchain.go`),
the validator (`pkg/validation.go`), the transaction pool
(`pkg/miner/tx_pool.go`), the miner (`pkg/miner/mining_pool.go`,
`pkg/miner/mine.go`) and the wallet (`pkg/wallet/liminal_txs.go`,
`pkg/wallet/wallet.go`).

The Go program keeps a tree of blocks in `Blockchain.blocks`, a pointer to the
tip of the main chain in `Blockchain.LastBlock`, and one UTXO map per node.
Go maps are reference values: assigning a map to a variable or a struct field
copies the reference, not the contents.  The embedding therefore keeps the map
objects in an explicit heap (`Blockchain.heap`) and lets every node hold the
address of its map.  `BlockchainNode` values themselves are never mutated after
their creation, so a pointer to a node is modelled by the node value.

Pointers: `LastBlock` and the values of `blocks` are never nil in a store built
by `New` and `Add`, and are modelled as plain node values; a missing key of a
map is `none`.  A heap address outside `Blockchain.heap` stands for the nil map
(reads find nothing); no node built by `New` or `Add` holds one.  The
transactions, inputs and outputs of a block are non-nil.

The double-spend test of `ChkTx` compares pointers to input objects; there the
inputs of a transaction come with the address of their object.  A run-time panic
(integer division by zero, nil pointer dereference) is the result `none`.  The
cancellation of the nonce search is an input: what each poll of `ctx.Done()`
sees.  A send on the outbound channel appends to the sequence of sent values.

Machine integers: `uint32` values are `Nat` with an explicit `% 2 ^ 32` at
every arithmetic operation of the source; `depth` (a Go `int`) is an `Int`
(a chain of `2 ^ 63` live nodes does not fit in memory).

Iteration order: Go leaves the order of `range` over a map unspecified.  A map
is an association list and `range` visits it in list order; statements about
order-sensitive code are made for every store, hence for every order.
-/

namespace BrunoCoin

/-! ## Data model (packages `txi`, `txo`, `tx`, `block`: declarations only) -/

/-- The modulus of `uint32` arithmetic. -/
def u32 : Nat := 2 ^ 32

/-- Go `txi.TransactionInput`. -/
structure TransactionInput where
  TransactionHash : String
  OutputIndex : Nat
  UnlockingScript : String
  Amount : Nat
deriving DecidableEq, Repr

/-- Go `txo.TransactionOutput`. -/
structure TransactionOutput where
  Amount : Nat
  LockingScript : String
  Liminal : Bool
deriving DecidableEq, Repr

/-- Go `tx.Transaction`. -/
structure Transaction where
  Version : Nat
  Inputs : List TransactionInput
  Outputs : List TransactionOutput
  LockTime : Nat
deriving DecidableEq, Repr

/-- Go `block.Header`. -/
structure Header where
  Ver : Nat
  PrvBlkHsh : String
  MrklRt : String
  Timestamp : Nat
  DiffTarg : String
  Nonce : Nat
deriving DecidableEq, Repr

/-- Go `block.Block`. -/
structure Block where
  Hdr : Header
  Transactions : List Transaction
deriving DecidableEq, Repr

/-- The two hash functions of the packages `block` and `tx`, whose code is not
part of the studied sources; every definition below takes them as a parameter. -/
structure Hashing where
  blkHash : Block → String
  txHash : Transaction → String

/-- The fields of `blockchain.Config` that `GenesisBlock` reads. -/
structure Config where
  InitSbsdy : Nat
  GenPK : String
deriving DecidableEq, Repr

/-- Modelled from the spec: `txo.MkTXOLoc`, whose code is not part of the studied
sources.  The TXO location is the string `"{tx-hash}-{index}"` with the index in
decimal, no padding. -/
def MkTXOLoc (txHash : String) (index : Nat) : String :=
  txHash ++ "-" ++ toString index

/-! ## Go maps with string keys -/

/-- A Go `map[string]V`: an association list.  The order of the list stands for
the order in which `range` visits the entries, which Go leaves unspecified. -/
abbrev GoMap (V : Type) := List (String × V)

/-- Go `v, ok := m[k]`. -/
def GoMap.get {V : Type} (m : GoMap V) (k : String) : Option V :=
  match m with
  | [] => none
  | (k', v) :: rest => if k' = k then some v else GoMap.get rest k

/-- Go `delete(m, k)`. -/
def GoMap.delete {V : Type} (m : GoMap V) (k : String) : GoMap V :=
  match m with
  | [] => []
  | (k', v) :: rest => if k' = k then GoMap.delete rest k else (k', v) :: GoMap.delete rest k

/-- Go `m[k] = v`. -/
def GoMap.set {V : Type} (m : GoMap V) (k : String) (v : V) : GoMap V :=
  match m with
  | [] => [(k, v)]
  | (k', v') :: rest => if k' = k then (k, v) :: GoMap.delete rest k else (k', v') :: GoMap.set rest k v

/-- The UTXO map of a node, `map[string]*txo.TransactionOutput`. -/
abbrev UTXOMap := GoMap TransactionOutput

/-! ## Block store -/

/-- Go `BlockchainNode`.  `utxo` is the address, in `Blockchain.heap`, of the map
object the node refers to. -/
inductive BlockchainNode where
  | mk (Block : Block) (PrevNode : Option BlockchainNode) (utxo : Nat) (depth : Int)

/-- Field `Block` of a node. -/
def BlockchainNode.Block : BlockchainNode → Block
  | .mk b _ _ _ => b

/-- Field `PrevNode` of a node (`none` is the nil pointer). -/
def BlockchainNode.PrevNode : BlockchainNode → Option BlockchainNode
  | .mk _ p _ _ => p

/-- Field `utxo` of a node: the address of its map. -/
def BlockchainNode.utxo : BlockchainNode → Nat
  | .mk _ _ u _ => u

/-- Field `depth` of a node. -/
def BlockchainNode.depth : BlockchainNode → Int
  | .mk _ _ _ d => d

/-- Go `Blockchain` (without the address and the mutex), together with the heap
cells that hold the UTXO map objects. -/
structure Blockchain where
  heap : List UTXOMap
  blocks : GoMap BlockchainNode
  LastBlock : BlockchainNode

/-- The contents of the map object at address `r`. -/
def Blockchain.deref (bc : Blockchain) (r : Nat) : UTXOMap :=
  (bc.heap.get? r).getD []

/-- The UTXO snapshot a node currently refers to. -/
def Blockchain.snapshot (bc : Blockchain) (n : BlockchainNode) : UTXOMap :=
  bc.deref n.utxo

/-! ## Operations of `blockchain.go` -/

/-- Modelled from the spec: `proto.NewTxOutpt` followed by `Deserialize`, whose
code is not part of the studied sources.  An output carries the amount, the
locking script and a liminal flag that is initially unset. -/
def NewTxOutpt (amt : Nat) (lockingScript : String) : TransactionOutput :=
  { Amount := amt, LockingScript := lockingScript, Liminal := false }

/-- Modelled from the spec: `proto.NewTx` followed by `Deserialize`, whose code is
not part of the studied sources.  A transaction is its version, ordered inputs,
ordered outputs and lock time. -/
def NewTx (ver : Nat) (inputs : List TransactionInput) (outputs : List TransactionOutput)
    (lockTime : Nat) : Transaction :=
  { Version := ver, Inputs := inputs, Outputs := outputs, LockTime := lockTime }

/-- Go `GenesisBlock`. -/
def GenesisBlock (conf : Config) : Block :=
  let txoo := [NewTxOutpt conf.InitSbsdy conf.GenPK]
  let genTx := NewTx 0 [] txoo 0
  { Hdr := { Ver := 0, PrvBlkHsh := "", MrklRt := "", Timestamp := 0, DiffTarg := "", Nonce := 0 },
    Transactions := [genTx] }

/-- The genesis transaction, `genBlock.Transactions[0]` in `New`. -/
def genesisTx (conf : Config) : Transaction :=
  NewTx 0 [] [NewTxOutpt conf.InitSbsdy conf.GenPK] 0

/-- The key `fmt.Sprintf("%v-%v", genTx.Hash(), 0)` computed by `New`. -/
def genTxKey (H : Hashing) (conf : Config) : String :=
  H.txHash (genesisTx conf) ++ "-" ++ toString 0

/-- The genesis node built by `New`; its map is the first heap cell. -/
def genesisNode (conf : Config) : BlockchainNode :=
  BlockchainNode.mk (GenesisBlock conf) none 0 0

/-- Go `New`: one map object is allocated (address 0), holding the genesis
output under `genTxKey`. -/
def New (H : Hashing) (conf : Config) : Blockchain :=
  { heap := [[(genTxKey H conf, NewTxOutpt conf.InitSbsdy conf.GenPK)]],
    blocks := [(H.blkHash (GenesisBlock conf), genesisNode conf)],
    LastBlock := genesisNode conf }

/-- The inner loop `for _, txInput := range transaction.Inputs` of `Add`. -/
def removeInputs (m : UTXOMap) (inputs : List TransactionInput) : UTXOMap :=
  inputs.foldl (fun acc txInput => acc.delete (MkTXOLoc txInput.TransactionHash txInput.OutputIndex)) m

/-- The inner loop `for ind, txOutput := range transaction.Outputs` of `Add`,
started at index `ind`; the key uses `uint32(ind)`. -/
def insertOutputs (txHash : String) (m : UTXOMap) (ind : Nat) (outputs : List TransactionOutput) :
    UTXOMap :=
  match outputs with
  | [] => m
  | txOutput :: rest =>
      insertOutputs txHash (m.set (MkTXOLoc txHash (ind % u32)) txOutput) (ind + 1) rest

/-- One iteration of the outer loop of `Add`: inputs removed, then outputs inserted. -/
def applyTx (H : Hashing) (m : UTXOMap) (transaction : Transaction) : UTXOMap :=
  insertOutputs (H.txHash transaction) (removeInputs m transaction.Inputs) 0 transaction.Outputs

/-- The loop `for _, transaction := range b.Transactions` of `Add`. -/
def applyBlock (H : Hashing) (m : UTXOMap) (b : Block) : UTXOMap :=
  b.Transactions.foldl (applyTx H) m

/-- Go `Blockchain.Add`.  `utxoCopy := lastNode.utxo` copies the map reference,
so the loop writes into the heap cell of the parent, and the new node holds the
same address. -/
def Add (H : Hashing) (bc : Blockchain) (b : Option Block) : Blockchain :=
  match b with
  | none => bc
  | some b =>
    match bc.blocks.get b.Hdr.PrvBlkHsh with
    | none => bc
    | some lastNode =>
      let utxoCopy := lastNode.utxo
      let heap := bc.heap.set utxoCopy (applyBlock H (bc.deref utxoCopy) b)
      let bn := BlockchainNode.mk b (some lastNode) utxoCopy (lastNode.depth + 1)
      { heap := heap,
        blocks := bc.blocks.set (H.blkHash b) bn,
        LastBlock := if bn.depth > bc.LastBlock.depth then bn else bc.LastBlock }

/-- Go `Blockchain.Length`. -/
def Length (bc : Blockchain) : Int :=
  bc.LastBlock.depth + 1

/-- Go `Blockchain.GetUTXO` (`none` is the nil output). -/
def GetUTXO (bc : Blockchain) (txi : TransactionInput) : Option TransactionOutput :=
  (bc.snapshot bc.LastBlock).get (MkTXOLoc txi.TransactionHash txi.OutputIndex)

/-- Go `Blockchain.IsInvalidInput`. -/
def IsInvalidInput (bc : Blockchain) (txi : TransactionInput) : Bool :=
  ((bc.snapshot bc.LastBlock).get (MkTXOLoc txi.TransactionHash txi.OutputIndex)).isNone

/-- Go `Blockchain.GetBalance`: a `uint32` accumulator over the tip's map. -/
def GetBalance (bc : Blockchain) (pk : String) : Nat :=
  (bc.snapshot bc.LastBlock).foldl
    (fun bal kv => if kv.2.LockingScript = pk then (bal + kv.2.Amount) % u32 else bal) 0

/-- Go `UTXOInfo`. -/
structure UTXOInfo where
  TxHsh : String
  OutIdx : Nat
  UTXO : TransactionOutput
  Amt : Nat
deriving DecidableEq, Repr

/-- The loop `for key, output := range lastUTXO` of `GetUTXOForAmt`, over the
entries still to visit, with the running `availableUTXO` and
`utxoForTransaction`.  `prs` is `txo.PrsTXOLoc`, whose code is not part of the
studied sources. -/
def GetUTXOForAmtLoop (prs : String → String × Nat) (amt : Nat) (pubKey : String) :
    List (String × TransactionOutput) → Nat → List UTXOInfo → List UTXOInfo × Nat × Bool
  | [], _, utxoForTransaction => (utxoForTransaction, 0, false)
  | (key, output) :: rest, availableUTXO, utxoForTransaction =>
      let step : Nat × List UTXOInfo :=
        if output.LockingScript = pubKey then
          ((availableUTXO + output.Amount) % u32,
            utxoForTransaction ++
              [{ TxHsh := (prs key).1, OutIdx := (prs key).2, UTXO := output, Amt := output.Amount }])
        else (availableUTXO, utxoForTransaction)
      if step.1 ≥ amt then (step.2, (step.1 - amt) % u32, true)
      else GetUTXOForAmtLoop prs amt pubKey rest step.1 step.2

/-- Go `Blockchain.GetUTXOForAmt`. -/
def GetUTXOForAmt (prs : String → String × Nat) (bc : Blockchain) (amt : Nat) (pubKey : String) :
    List UTXOInfo × Nat × Bool :=
  if amt = 0 then ([], 0, true)
  else GetUTXOForAmtLoop prs amt pubKey (bc.snapshot bc.LastBlock) 0 []

/-! ## Reachable stores -/

/-- The stores obtained from `New conf` by a sequence of `Add` calls. -/
inductive Reachable (H : Hashing) (conf : Config) : Blockchain → Prop where
  | init : Reachable H conf (New H conf)
  | add (bc : Blockchain) (b : Option Block) : Reachable H conf bc → Reachable H conf (Add H bc b)

/-! ## A concrete instance for evaluation -/

/-- A header hash used to evaluate the definitions on concrete stores: the
merkle root, used as a tag, followed by `"<"` and the previous hash. -/
def demoBlkHash (b : Block) : String :=
  b.Hdr.MrklRt ++ "<" ++ b.Hdr.PrvBlkHsh

/-- A transaction hash used to evaluate the definitions on concrete stores. -/
def demoTxHash (t : Transaction) : String :=
  "T" ++ toString t.LockTime

/-- The hash functions used for evaluation. -/
def demoH : Hashing := { blkHash := demoBlkHash, txHash := demoTxHash }

/-- A node followed by all its ancestors, nearest first (the walk along
`PrevNode` that `List` and `Slice` perform). -/
def BlockchainNode.chain : BlockchainNode → List BlockchainNode
  | .mk b none u d => [.mk b none u d]
  | .mk b (some p) u d => .mk b (some p) u d :: p.chain

/-- The nodes of a store: those the map `blocks` or the pointer `LastBlock`
refer to, and their ancestors. -/
def InStore (bc : Blockchain) (n : BlockchainNode) : Prop :=
  n ∈ bc.LastBlock.chain ∨ ∃ k m, bc.blocks.get k = some m ∧ n ∈ m.chain

/-- The nodes that `New` and `Add` can build: the genesis node, or a node whose
depth is one more than that of its parent. -/
inductive Good (conf : Config) : BlockchainNode → Prop where
  | genesis : Good conf (genesisNode conf)
  | child (b : Block) (p : BlockchainNode) (u : Nat) :
      Good conf p → Good conf (BlockchainNode.mk b (some p) u (p.depth + 1))

/-- The invariant of the stores built by `New` and `Add`. -/
structure StoreInv (conf : Config) (bc : Blockchain) : Prop where
  tip_good : Good conf bc.LastBlock
  blocks_good : ∀ k m, bc.blocks.get k = some m → Good conf m
  blocks_le : ∀ k m, bc.blocks.get k = some m → m.depth ≤ bc.LastBlock.depth

/-! ## The properties of the specification, stated on the model -/

/-- The TXO keys consumed by the inputs of a block. -/
def consumed (b : Block) : List String :=
  b.Transactions.flatMap
    (fun t => t.Inputs.map (fun txi => MkTXOLoc txi.TransactionHash txi.OutputIndex))

/-- The outputs produced by a block, each under its key `MkTXOLoc(txHash, index)`. -/
def produced (H : Hashing) (b : Block) : UTXOMap :=
  b.Transactions.flatMap
    (fun t => t.Outputs.enum.map (fun io => (MkTXOLoc (H.txHash t) io.1, io.2)))

/-- The snapshot the specification prescribes for a node, read at key `k`:
the parent snapshot minus the consumed keys, union the produced outputs. -/
def derivedGet (H : Hashing) (parent : UTXOMap) (b : Block) (k : String) :
    Option TransactionOutput :=
  match (produced H b).get k with
  | some o => some o
  | none => if k ∈ consumed b then none else parent.get k

/-- The sum of the amounts of the outputs of a snapshot locked to `pk`, over the
natural numbers. -/
def lockedSum (m : UTXOMap) (pk : String) : Nat :=
  match m with
  | [] => 0
  | kv :: rest => (if kv.2.LockingScript = pk then kv.2.Amount else 0) + lockedSum rest pk

/-- The sum of the amounts of a list of `UTXOInfo`, over the natural numbers. -/
def infoSum (l : List UTXOInfo) : Nat :=
  match l with
  | [] => 0
  | i :: rest => i.Amt + infoSum rest

/-! ## Concrete stores used for evaluation -/

/-- The configuration of scenario S1: subsidy 50 paid to `"P"`. -/
def demoConf : Config := { InitSbsdy := 50, GenPK := "P" }

/-- A block with the given parent hash, tag and transactions. -/
def demoBlock (prev : String) (tag : String) (txs : List Transaction) : Block :=
  { Hdr := { Ver := 0, PrvBlkHsh := prev, MrklRt := tag, Timestamp := 0, DiffTarg := "", Nonce := 0 },
    Transactions := txs }

/-- Block A, a child of the genesis block: one coinbase paying 25 to `"M"`
(transaction hash `"T1"`). -/
def demoBlkA : Block :=
  demoBlock "<" "a" [NewTx 0 [] [NewTxOutpt 25 "M"] 1]

/-- Block B, a child of block A: one transaction spending the output `"T1-0"` of
block A and paying 24 to `"Q"` (transaction hash `"T2"`). -/
def demoBlkB : Block :=
  demoBlock "a<<" "b"
    [NewTx 0 [{ TransactionHash := "T1", OutputIndex := 0, UnlockingScript := "M", Amount := 25 }]
      [NewTxOutpt 24 "Q"] 2]

/-- Block C, a second child of the genesis block (a sibling of block A): one
coinbase paying 25 to `"Q"` (transaction hash `"T3"`). -/
def demoBlkC : Block :=
  demoBlock "<" "c" [NewTx 0 [] [NewTxOutpt 25 "Q"] 3]

/-- A block whose parent hash is unknown to every store below. -/
def demoOrphan : Block :=
  demoBlock "nowhere" "d" [NewTx 0 [] [NewTxOutpt 25 "Q"] 4]

/-- The store after `New`. -/
def demoStore0 : Blockchain := New demoH demoConf

/-- The store after `New; Add(A)`. -/
def demoStoreA : Blockchain := Add demoH demoStore0 (some demoBlkA)

/-- The store after `New; Add(A); Add(B)`. -/
def demoStoreAB : Blockchain := Add demoH demoStoreA (some demoBlkB)

/-- The node that `Add(A)` creates. -/
def demoNodeA : BlockchainNode :=
  BlockchainNode.mk demoBlkA (some (genesisNode demoConf)) 0 1

/-- A configuration whose subsidy is the largest `uint32`. -/
def demoConfMax : Config := { InitSbsdy := 4294967295, GenPK := "P" }

/-- A child of the genesis block with one coinbase paying 1 to `"P"`. -/
def demoBlkOne : Block :=
  demoBlock "<" "a" [NewTx 0 [] [NewTxOutpt 1 "P"] 1]

/-- The store after `New(demoConfMax); Add(demoBlkOne)`: the outputs locked to
`"P"` hold `4294967295 + 1` in total. -/
def demoStoreWrap : Blockchain :=
  Add demoH (New demoH demoConfMax) (some demoBlkOne)

/-- A configuration with subsidy `2 ^ 31 + 1` paid to `"P"`. -/
def demoConfHalf : Config := { InitSbsdy := 2147483649, GenPK := "P" }

/-- A child of the genesis block with one coinbase paying `2 ^ 31 + 1` to `"P"`,
twice. -/
def demoBlkBig : Block :=
  demoBlock "<" "a" [NewTx 0 [] [NewTxOutpt 2147483649 "P", NewTxOutpt 2147483649 "P"] 1]

/-- The store after `New(demoConfHalf); Add(demoBlkBig)`: the tip snapshot holds
three outputs of `2 ^ 31 + 1`, all locked to `"P"`. -/
def demoStoreBig : Blockchain :=
  Add demoH (New demoH demoConfHalf) (some demoBlkBig)

/-- A parser of TXO locations used for evaluation: the text before the last
`'-'` and the decimal number after it. -/
def demoPrsTXOLoc (key : String) : String × Nat :=
  let r := key.data.reverse
  (String.mk ((r.dropWhile (fun c => c != '-')).drop 1).reverse,
    (r.takeWhile (fun c => c != '-')).reverse.foldl (fun n c => 10 * n + (c.toNat - 48)) 0)

/-! ## Validation (`pkg/validation.go`) -/

/-- The methods of the packages `block`, `tx` and `txo` that the validator and
the miner call and whose code is not part of the studied sources: the size of a
block and of a transaction (`Sz`), the proof-of-work test and the unlocking
test.  Every definition that calls one of them takes this record as a parameter. -/
structure Pkg where
  BlkSz : Block → Nat
  TxSz : Transaction → Nat
  SatisfiesPOW : Block → String → Bool
  IsUnlckd : TransactionOutput → String → Bool

/-- Modelled from the spec: `tx.SumInputs`, whose code is not part of the studied
sources.  The sum of the amount hints carried by the inputs, a `uint32`. -/
def SumInputs (t : Transaction) : Nat :=
  t.Inputs.foldl (fun sum txi => (sum + txi.Amount) % u32) 0

/-- Modelled from the spec: `tx.SumOutputs`, whose code is not part of the studied
sources.  The sum of the amounts of the outputs, a `uint32`. -/
def SumOutputs (t : Transaction) : Nat :=
  t.Outputs.foldl (fun sum txo => (sum + txo.Amount) % u32) 0

/-- Modelled from the spec: `tx.IsCoinbase`, whose code is not part of the studied
sources.  A transaction is a coinbase iff its input set is empty. -/
def IsCoinbase (t : Transaction) : Bool :=
  t.Inputs.isEmpty

/-- The fields of the Go `Node` that the validator reads: the block store and
`Conf.MxBlkSz`. -/
structure Node where
  Chain : Blockchain
  MxBlkSz : Nat

/-- Go `Blockchain.ChkChainsUTXO`. -/
def ChkChainsUTXO (bc : Blockchain) (txs : List Transaction) (prevHash : String) : Bool :=
  let lastBlock :=
    match bc.blocks.get prevHash with
    | some found => found
    | none => bc.LastBlock
  txs.all (fun t => t.Inputs.all (fun txii =>
    ((bc.snapshot lastBlock).get (MkTXOLoc txii.TransactionHash txii.OutputIndex)).isSome))

/-- The loop `for _, txInput := range t.Inputs` of `ChkTx`.  Every input comes
with the address of its object, since `doubleSpendingCheckMap` is keyed by the
pointer `*txi.TransactionInput`; `seen` holds the keys put into that map. -/
def ChkTxLoop (P : Pkg) (chain : Blockchain) :
    List (Nat × TransactionInput) → List Nat → Bool
  | [], _ => true
  | (ptr, txInput) :: rest, seen =>
      if IsInvalidInput chain txInput then false
      else if ptr ∈ seen then false
      else
        match GetUTXO chain txInput with
        | none => false
        | some txOutput =>
            if !P.IsUnlckd txOutput txInput.UnlockingScript then false
            else ChkTxLoop P chain rest (ptr :: seen)

/-- The inputs of a transaction, each with the address of its object; `addr i`
is the address of the object at index `i` of `t.Inputs`. -/
def inputPtrs (addr : Nat → Nat) (t : Transaction) : List (Nat × TransactionInput) :=
  t.Inputs.enum.map (fun ix => (addr ix.1, ix.2))

/-- Go `Node.ChkTx`; `none` is the nil transaction. -/
def ChkTx (P : Pkg) (n : Node) (addr : Nat → Nat) (t : Option Transaction) : Bool :=
  match t with
  | none => false
  | some t =>
    if t.Inputs.length = 0 ∨ t.Outputs.length = 0 then false
    else if ¬ (SumInputs t > SumOutputs t) then false
    else if P.TxSz t > n.MxBlkSz then false
    else ChkTxLoop P n.Chain (inputPtrs addr t) []

/-- The loop `for _, newTx := range b.Transactions` of `ChkBlk`, from index `j`
on; `addr j` gives the addresses of the inputs of the transaction at index `j`. -/
def ChkBlkLoop (P : Pkg) (n : Node) (addr : Nat → Nat → Nat) : Nat → List Transaction → Bool
  | _, [] => true
  | j, newTx :: rest =>
      if !ChkTx P n (addr j) (some newTx) then false
      else ChkBlkLoop P n addr (j + 1) rest

/-- Go `Node.ChkBlk`; `none` is the nil node, respectively the nil block. -/
def ChkBlk (P : Pkg) (addr : Nat → Nat → Nat) (n : Option Node) (b : Option Block) : Bool :=
  match b, n with
  | none, _ => false
  | some _, none => false
  | some b, some n =>
    match b.Transactions with
    | [] => false
    | first :: _ =>
      if !IsCoinbase first then false
      else if !P.SatisfiesPOW b b.Hdr.DiffTarg then false
      else if P.BlkSz b > n.MxBlkSz then false
      else if !ChkChainsUTXO n.Chain b.Transactions b.Hdr.PrvBlkHsh then false
      else ChkBlkLoop P n addr 0 b.Transactions

/-! ## Concrete values used to evaluate the validator -/

/-- A size function used for evaluation: 20 bytes, 50 per input, 30 per output. -/
def demoTxSz (t : Transaction) : Nat :=
  20 + 50 * t.Inputs.length + 30 * t.Outputs.length

/-- A lexicographic comparison of two strings, character by character. -/
def lexLess : List Char → List Char → Bool
  | _, [] => false
  | [], _ :: _ => true
  | a :: l, b :: r =>
      if a.toNat < b.toNat then true
      else if a.toNat = b.toNat then lexLess l r
      else false

/-- The package methods used for evaluation: a block is 80 bytes plus its
transactions, the proof of work compares the block hash with the target, and an
output is unlocked by its own locking script. -/
def demoPkg : Pkg :=
  { BlkSz := fun b => 80 + (b.Transactions.map demoTxSz).sum,
    TxSz := demoTxSz,
    SatisfiesPOW := fun b target => lexLess (demoBlkHash b).data target.data,
    IsUnlckd := fun o script => o.LockingScript == script }

/-- A node on the genesis-only store of scenario S1 with `MxBlkSz = 1000`. -/
def demoNode : Node := { Chain := demoStore0, MxBlkSz := 1000 }

/-- The input spending the genesis output `"T0-0"` (50, locked to `"P"`). -/
def demoInGenesis : TransactionInput :=
  { TransactionHash := "T0", OutputIndex := 0, UnlockingScript := "P", Amount := 50 }

/-- A transaction spending the genesis output and paying 40 to `"Q"`. -/
def demoTxPay : Transaction := NewTx 0 [demoInGenesis] [NewTxOutpt 40 "Q"] 5

/-- A block on top of the genesis block with difficulty target `"z"`: a coinbase
paying 25 to `"M"`, then `demoTxPay`. -/
def demoBlkValid : Block :=
  { Hdr := { Ver := 0, PrvBlkHsh := "<", MrklRt := "c", Timestamp := 0, DiffTarg := "z", Nonce := 0 },
    Transactions := [NewTx 0 [] [NewTxOutpt 25 "M"] 1, demoTxPay] }

/-- A transaction spending the genesis output whose only output has amount 0. -/
def demoTxZeroOut : Transaction := NewTx 0 [demoInGenesis] [NewTxOutpt 0 "Q"] 6

/-- A transaction with two inputs, both spending the genesis output `"T0-0"`
(50), and one output of 60. -/
def demoTxDouble : Transaction :=
  NewTx 0 [demoInGenesis, demoInGenesis] [NewTxOutpt 60 "Q"] 7

/-! ## Transaction pool (`pkg/miner/tx_pool.go`) -/

/-- An entry of `tx.Heap`: a priority and a transaction. -/
structure HeapItem where
  P : Nat
  T : Transaction
deriving DecidableEq, Repr

/-- Go `tx.Heap`, the slice of entries in the order `NewMiningPool` indexes it. -/
abbrev Heap := List HeapItem

/-- Modelled from the spec: `tx.Heap.Add`, whose code is not part of the studied
sources.  The heap is a maximum-priority queue kept highest priority first; a
new entry goes behind the entries of greater or equal priority. -/
def Heap.Add (h : Heap) (pri : Nat) (t : Transaction) : Heap :=
  match h with
  | [] => [{ P := pri, T := t }]
  | x :: rest =>
      if x.P < pri then { P := pri, T := t } :: x :: rest else x :: Heap.Add rest pri t

/-- Modelled from the spec: `tx.Heap.Rmv`, whose code is not part of the studied
sources.  Every entry whose transaction is in `txs` is removed from the heap;
the result is the remaining heap and the removed transactions. -/
def Heap.Rmv (h : Heap) (txs : List Transaction) : Heap × List Transaction :=
  (h.filter (fun x => decide (x.T ∉ txs)), (h.filter (fun x => decide (x.T ∈ txs))).map (fun x => x.T))

/-- The fields of `miner.Config`. -/
structure MinerConfig where
  Ver : Nat
  PriLim : Nat
  TxPCap : Nat
  BlkSz : Nat
  InitSubsdy : Nat
  SubsdyHlvRt : Nat
  MxHlvgs : Nat
  NncLim : Nat
  InitPOWD : String
deriving DecidableEq, Repr

/-- Go `TxPool` (without the mutex); the two atomic counters are their values. -/
structure TxPool where
  CurPri : Nat
  PriLim : Nat
  TxQ : Heap
  Ct : Nat
  Cap : Nat
deriving DecidableEq, Repr

/-- Go `NewTxPool`. -/
def NewTxPool (c : MinerConfig) : TxPool :=
  { CurPri := 0, PriLim := c.PriLim, TxQ := [], Ct := 0, Cap := c.TxPCap }

/-- Go `TxPool.PriMet`. -/
def TxPool.PriMet (tp : TxPool) : Bool :=
  decide (tp.CurPri ≥ tp.PriLim)

/-- Go `CalcPri`; the argument `none` is the nil transaction, the result `none`
is the run-time panic of the integer division by a zero `t.Sz()`.  All
operations are on `uint32`. -/
def CalcPri (P : Pkg) (t : Option Transaction) : Option Nat :=
  match t with
  | none => some 0
  | some t =>
    let fees := (SumInputs t + u32 - SumOutputs t) % u32
    if P.TxSz t = 0 then none
    else
      let priority := (fees * 100) % u32 / P.TxSz t
      if priority = 0 then some 1 else some priority

/-- Go `TxPool.Add`; the result `none` is a panic of `CalcPri`. -/
def TxPool.Add (P : Pkg) (tp : TxPool) (t : Option Transaction) : Option TxPool :=
  match t with
  | none => some tp
  | some t =>
    if tp.Ct < tp.Cap then
      match CalcPri P (some t) with
      | none => none
      | some priority =>
          some { tp with
            CurPri := (tp.CurPri + priority) % u32,
            Ct := (tp.Ct + 1) % u32,
            TxQ := tp.TxQ.Add priority t }
    else some tp

/-- The loop `for _, removedTx := range removedTransactions` of `ChkTxs`, with
the running `priorityRemoved`. -/
def priorityRemovedLoop (P : Pkg) : List Transaction → Nat → Option Nat
  | [], priorityRemoved => some priorityRemoved
  | removedTx :: rest, priorityRemoved =>
      match CalcPri P (some removedTx) with
      | none => none
      | some pri => priorityRemovedLoop P rest ((priorityRemoved + pri) % u32)

/-- Go `TxPool.ChkTxs`; the result `none` is a panic of `CalcPri`.  An empty list
of removed transactions is the nil slice. -/
def TxPool.ChkTxs (P : Pkg) (tp : TxPool) (remover : List Transaction) : Option TxPool :=
  let removedTransactions := (tp.TxQ.Rmv remover).2
  if removedTransactions = [] then some { tp with TxQ := (tp.TxQ.Rmv remover).1 }
  else
    match priorityRemovedLoop P removedTransactions 0 with
    | none => none
    | some priorityRemoved =>
        some { tp with
          TxQ := (tp.TxQ.Rmv remover).1,
          CurPri := (tp.CurPri + u32 - priorityRemoved) % u32,
          Ct := (tp.Ct + u32 - removedTransactions.length % u32) % u32 }

/-- The pools obtained from `NewTxPool c` by `Add` and `ChkTxs` calls that return. -/
inductive PoolReachable (P : Pkg) (c : MinerConfig) : TxPool → Prop where
  | init : PoolReachable P c (NewTxPool c)
  | add (tp tp' : TxPool) (t : Option Transaction) :
      PoolReachable P c tp → TxPool.Add P tp t = some tp' → PoolReachable P c tp'
  | chk (tp tp' : TxPool) (remover : List Transaction) :
      PoolReachable P c tp → TxPool.ChkTxs P tp remover = some tp' → PoolReachable P c tp'

/-- The priority `CalcPri` gives to a queued transaction (0 stands for a panic). -/
def priOf (P : Pkg) (t : Transaction) : Nat :=
  (CalcPri P (some t)).getD 0

/-- The sum of `CalcPri` over the queued transactions, over the natural numbers. -/
def queuedPriSum (P : Pkg) (q : Heap) : Nat :=
  (q.map (fun x => priOf P x.T)).sum

/-! ## Miner (`pkg/miner/mining_pool.go`, `pkg/miner/mine.go`) -/

/-- The fields of the Go `Miner` read by `NewMiningPool` and `GenCBTx`; `PubKey`
is the byte slice `m.Id.GetPublicKeyBytes()`. -/
structure Miner where
  Conf : MinerConfig
  TxP : TxPool
  ChnLen : Nat
  PrvHsh : String
  PubKey : List Nat

/-- The loop of `NewMiningPool` over the entries still to visit, with the running
`blkSz` (a `uint32`) and `txs`. -/
def NewMiningPoolLoop (P : Pkg) (BlkSz : Nat) : List HeapItem → Nat → List Transaction → List Transaction
  | [], _, txs => txs
  | r :: rest, blkSz, txs =>
      if (blkSz + P.TxSz r.T) % u32 < BlkSz then
        NewMiningPoolLoop P BlkSz rest ((blkSz + P.TxSz r.T) % u32) (txs ++ [r.T])
      else txs

/-- Go `Miner.NewMiningPool`. -/
def NewMiningPool (P : Pkg) (m : Miner) : List Transaction :=
  NewMiningPoolLoop P m.Conf.BlkSz m.TxP.TxQ 100 []

/-- The value of `uint32(math.Pow(2, float64(k)))`.  For `k < 32` the power is
representable exactly and the conversion yields `2 ^ k`; for larger `k` Go leaves
the result of the conversion to the implementation, given here by `impl`. -/
def pow2u32 (impl : Nat → Nat) (k : Nat) : Nat :=
  if k < 32 then 2 ^ k else impl k % u32

/-- The loop `for _, transaction := range txs` of `GenCBTx` with the running
`fees`; the result `none` is the early `return nil` on a nil transaction. -/
def GenCBTxFees : List (Option Transaction) → Nat → Option Nat
  | [], fees => some fees
  | none :: _, _ => none
  | some transaction :: rest, fees =>
      GenCBTxFees rest
        ((fees + (SumInputs transaction + u32 - SumOutputs transaction) % u32) % u32)

/-- Go `string(b)` for a byte slice `b`: the string made of these bytes. -/
def bytesToString (b : List Nat) : String :=
  String.mk (b.map Char.ofNat)

/-- Go `Miner.GenCBTx`.  The outer `none` is a run-time panic (integer division
by zero), `some none` is the nil transaction. -/
def GenCBTx (impl : Nat → Nat) (m : Miner) (txs : List (Option Transaction)) :
    Option (Option Transaction) :=
  if txs.length = 0 then some none
  else
    match GenCBTxFees txs 0 with
    | none => some none
    | some fees =>
      if m.Conf.SubsdyHlvRt = 0 then none
      else
        let timesToHalf :=
          if m.ChnLen / m.Conf.SubsdyHlvRt > m.Conf.MxHlvgs then m.Conf.MxHlvgs
          else m.ChnLen / m.Conf.SubsdyHlvRt
        if pow2u32 impl timesToHalf = 0 then none
        else
          let mintingReward := m.Conf.InitSubsdy / pow2u32 impl timesToHalf
          let total := (mintingReward + fees) % u32
          some (some
            { Version := m.Conf.Ver,
              Inputs := [],
              Outputs := [{ Amount := total, LockingScript := bytesToString m.PubKey, Liminal := false }],
              LockTime := 0 })

/-- One lower-case hexadecimal digit. -/
def hexDigit (n : Nat) : Char :=
  "0123456789abcdef".data.getD n '0'

/-- Go `hex.EncodeToString` of the standard library: two lower-case hexadecimal
digits per byte. -/
def hexEncode (b : List Nat) : String :=
  String.mk (b.flatMap (fun x => [hexDigit (x / 16 % 16), hexDigit (x % 16)]))

/-- The fees of the specification, `Σ (sumInputs − sumOutputs)`, over the natural
numbers. -/
def plainFees (txs : List Transaction) : Nat :=
  (txs.map (fun t => SumInputs t - SumOutputs t)).sum

/-- The fees as `GenCBTx` accumulates them: every difference and the sum are
taken in `uint32`. -/
def wrapFees (txs : List Transaction) : Nat :=
  (txs.map (fun t => (SumInputs t + u32 - SumOutputs t) % u32)).sum % u32

/-- The sum of the sizes of a list of transactions, over the natural numbers. -/
def sizeSum (P : Pkg) (txs : List Transaction) : Nat :=
  (txs.map P.TxSz).sum

/-! ## Concrete values used to evaluate the pool and the miner -/

/-- A miner configuration: pool capacity 200, mining pack size 200, subsidy 50
halved every 10 blocks, at most 5 times. -/
def demoMinerConf : MinerConfig :=
  { Ver := 1, PriLim := 1, TxPCap := 200, BlkSz := 200, InitSubsdy := 50, SubsdyHlvRt := 10,
    MxHlvgs := 5, NncLim := 100, InitPOWD := "z" }

/-- The same configuration with pool capacity 1. -/
def demoMinerConfOne : MinerConfig := { demoMinerConf with TxPCap := 1 }

/-- A transaction with one input of `amt` and one output of `out`; its size under
`demoTxSz` is 100. -/
def demoTxFee (amt out : Nat) : Transaction :=
  NewTx 0 [{ TransactionHash := "T0", OutputIndex := 0, UnlockingScript := "P", Amount := amt }]
    [NewTxOutpt out "Q"] 9

/-- A transaction with fee 42949672: its priority is 42949672. -/
def demoTxRich : Transaction := demoTxFee 42949673 1

/-- A transaction with fee 42949673, for which `fees * 100` exceeds `uint32`. -/
def demoTxRicher : Transaction := demoTxFee 42949674 1

/-- The pool after `NewTxPool` and 101 calls `Add(demoTxRich)`. -/
def demoPool101 : TxPool :=
  (List.replicate 101 demoTxRich).foldl
    (fun tp t => (TxPool.Add demoPkg tp (some t)).getD tp) (NewTxPool demoMinerConf)

/-- The pool of capacity 1 after `NewTxPool` and `Add(demoTxPay)`: it is full. -/
def demoPoolFull : TxPool :=
  (TxPool.Add demoPkg (NewTxPool demoMinerConfOne) (some demoTxPay)).getD (NewTxPool demoMinerConfOne)

/-- A miner with the given pool queue, chain length and public key bytes. -/
def demoMiner (q : Heap) (chnLen : Nat) (pk : List Nat) : Miner :=
  { Conf := demoMinerConf,
    TxP := { CurPri := 0, PriLim := 1, TxQ := q, Ct := q.length, Cap := 200 },
    ChnLen := chnLen, PrvHsh := "<", PubKey := pk }

/-- A transaction with fee `2 ^ 31`. -/
def demoTxHalf : Transaction := demoTxFee 2147483648 0

/-- A transaction with fee 7. -/
def demoTxSeven : Transaction := demoTxFee 50 43

/-- The invariant of the pools built by `NewTxPool`, `Add` and `ChkTxs`. -/
structure PoolInv (P : Pkg) (c : MinerConfig) (tp : TxPool) : Prop where
  ct_len : tp.Ct = tp.TxQ.length
  ct_le : tp.Ct ≤ tp.Cap
  cap_eq : tp.Cap = c.TxPCap
  pri_sum : tp.CurPri = queuedPriSum P tp.TxQ % u32

/-- The number of halvings of the specification:
`min(chainLength / SubsdyHlvRt, MxHlvgs)`. -/
def halvings (m : Miner) : Nat :=
  min (m.ChnLen / m.Conf.SubsdyHlvRt) m.Conf.MxHlvgs

/-- The minting reward of the specification: `InitSubsdy >> halvings`. -/
def mintReward (m : Miner) : Nat :=
  m.Conf.InitSubsdy >>> halvings m

/-! ## Lookups and walks of `blockchain.go` -/

/-- Go `Blockchain.Get`.  The outer `none` is the run-time panic of reading the
field `Block` through the nil pointer that `bc.blocks[hash]` yields for a missing
key. -/
def Get (bc : Blockchain) (hash : String) : Option (Option Block) :=
  match bc.blocks.get hash with
  | none => none
  | some n => some (some n.Block)

/-- Go `Blockchain.IndexOf`. -/
def IndexOf (bc : Blockchain) (hash : String) : Int :=
  match bc.blocks.get hash with
  | none => -1
  | some n => n.depth

/-- The loop `for ct := bc.LastBlock.depth + 1; ct > 0; ct--` of `List`, with the
iterations still to run, the pointer `b` and the slice built so far.  The result
`none` is the panic of reading through a nil `b`. -/
def ListLoop : Nat → Option BlockchainNode → List Block → Option (List Block)
  | 0, _, slice => some slice
  | _ + 1, none, _ => none
  | ct + 1, some b, slice => ListLoop ct b.PrevNode (b.Block :: slice)

/-- Go `Blockchain.List`. -/
def Blockchain.List (bc : Blockchain) : Option (List Block) :=
  ListLoop (bc.LastBlock.depth + 1).toNat (some bc.LastBlock) []

/-- The loop `for b.depth >= s` of `Slice`, from the node `b` on, with the slice
built so far. -/
def SliceLoop (s e : Int) : BlockchainNode → List Block → List Block
  | .mk blk none _ d, slice =>
      if d ≥ s then (if d < e then blk :: slice else slice) else slice
  | .mk blk (some p) _ d, slice =>
      if d ≥ s then SliceLoop s e p (if d < e then blk :: slice else slice) else slice

/-- Go `Blockchain.Slice`. -/
def Slice (bc : Blockchain) (s e : Int) : List Block :=
  SliceLoop s e bc.LastBlock []

/-- The main chain of a store, genesis first: the tip and its ancestors. -/
def mainChain (bc : Blockchain) : List BlockchainNode :=
  bc.LastBlock.chain.reverse

/-- The snapshot derivation in the words of the specification, for one
transaction: every TXO key referenced by its inputs is removed, then each output
`i` is inserted under `MkTXOLoc(txHash, i)`. -/
def specApplyTx (H : Hashing) (m : UTXOMap) (t : Transaction) : UTXOMap :=
  t.Outputs.enum.foldl (fun acc io => acc.set (MkTXOLoc (H.txHash t) io.1) io.2)
    (t.Inputs.foldl (fun acc i => acc.delete (MkTXOLoc i.TransactionHash i.OutputIndex)) m)

/-- The snapshot derivation in the words of the specification, for the
transactions of a block in block order. -/
def specApplyBlock (H : Hashing) (m : UTXOMap) (b : Block) : UTXOMap :=
  b.Transactions.foldl (specApplyTx H) m

/-! ## Nonce search and block assembly (`pkg/miner/mine.go`) -/

/-- A block with its header nonce set, the assignment `b.Hdr.Nonce = i`. -/
def setNonce (b : Block) (i : Nat) : Block :=
  { b with Hdr := { b.Hdr with Nonce := i } }

/-- The loop `for i := uint32(0); i < m.Conf.NncLim; i++` of `CalcNonce`, with
the iterations still to run (`NncLim - i`), the nonce `i` and the block.
`cancelled i` tells whether `ctx.Done()` is ready when iteration `i` polls it. -/
def CalcNonceLoop (P : Pkg) (target : String) (cancelled : Nat → Bool) :
    Nat → Nat → Block → Bool × Block
  | 0, _, b => (false, b)
  | r + 1, i, b =>
      if cancelled i then (false, b)
      else if P.SatisfiesPOW (setNonce b i) target then (true, setNonce b i)
      else CalcNonceLoop P target cancelled r (i + 1) (setNonce b i)

/-- Go `Miner.CalcNonce`: the returned flag and the block as the search left it. -/
def CalcNonce (P : Pkg) (m : Miner) (cancelled : Nat → Bool) (b : Block) : Bool × Block :=
  CalcNonceLoop P m.Conf.InitPOWD cancelled m.Conf.NncLim 0 b

/-- The transaction slice that the goroutine of `Mine` hands to `block.New`:
`append([]*tx.Transaction{m.GenCBTx(m.MiningPool)}, m.MiningPool...)`.  The outer
`none` is a panic of `GenCBTx`, `some none` is the early return when `PriMet()`
is false; an element `none` of the slice is a nil transaction. -/
def MineTxs (P : Pkg) (impl : Nat → Nat) (m : Miner) :
    Option (Option (List (Option Transaction))) :=
  if !m.TxP.PriMet then some none
  else
    match GenCBTx impl m ((NewMiningPool P m).map some) with
    | none => none
    | some cb => some (some (cb :: (NewMiningPool P m).map some))

/-! ## Wallet (`pkg/wallet/liminal_txs.go`, `pkg/wallet/wallet.go`) -/

/-- Modelled from the spec: `tx.Heap.IncAll`, whose code is not part of the studied
sources.  Every priority is incremented by 1 (a `uint32`). -/
def Heap.IncAll (h : Heap) : Heap :=
  h.map (fun x => { x with P := (x.P + 1) % u32 })

/-- Modelled from the spec: `tx.Heap.RemAbv`, whose code is not part of the studied
sources.  Every entry whose priority exceeds the threshold is evicted; the
result is the remaining heap and the evicted transactions. -/
def Heap.RemAbv (h : Heap) (thresh : Nat) : Heap × List Transaction :=
  (h.filter (fun x => decide (¬ x.P > thresh)),
    (h.filter (fun x => decide (x.P > thresh))).map (fun x => x.T))

/-- Go `LiminalTxs` (without the mutex). -/
structure LiminalTxs where
  TxQ : Heap
  TxRplyThresh : Nat
deriving DecidableEq, Repr

/-- The fields of `wallet.Config`. -/
structure WalletConfig where
  TxVer : Nat
  DefLckTm : Nat
  TxRplyThresh : Nat
deriving DecidableEq, Repr

/-- Go `NewLmnlTxs`. -/
def NewLmnlTxs (c : WalletConfig) : LiminalTxs :=
  { TxQ := [], TxRplyThresh := c.TxRplyThresh }

/-- Go `LiminalTxs.ChkTxs`: the queue after the call, then the two returned
slices in the order of the `return` statement, `aboveThres` first and
`removedTransactions` second. -/
def LiminalTxs.ChkTxs (l : LiminalTxs) (txs : List Transaction) :
    LiminalTxs × List Transaction × List Transaction :=
  let removedTransactions := (l.TxQ.Rmv txs).2
  let incremented := Heap.IncAll (l.TxQ.Rmv txs).1
  let aboveThres := (incremented.RemAbv l.TxRplyThresh).2
  ({ l with TxQ := (incremented.RemAbv l.TxRplyThresh).1 }, aboveThres, removedTransactions)

/-- Go `LiminalTxs.Add`. -/
def LiminalTxs.Add (l : LiminalTxs) (t : Transaction) : LiminalTxs :=
  { l with TxQ := l.TxQ.Add 0 t }

/-- Go `TxReq`. -/
structure TxReq where
  PubK : List Nat
  Amt : Nat
  Fee : Nat
deriving DecidableEq, Repr

/-- Go `Wallet` (without address and mutex).  `Id` is the byte slice
`w.Id.GetPublicKeyBytes()`; `SendTx` is the sequence of transactions sent on the
outbound channel so far. -/
structure Wallet where
  Conf : WalletConfig
  Id : List Nat
  Chain : Blockchain
  SendTx : List Transaction
  LmnlTxs : LiminalTxs

/-- Modelled from the spec: `proto.NewTxInpt` followed by `Deserialize`, whose
code is not part of the studied sources.  An input carries the source
transaction hash, the output index, the unlocking script and the amount hint. -/
def NewTxInpt (txHash : String) (outIdx : Nat) (unlockingScript : String) (amt : Nat) :
    TransactionInput :=
  { TransactionHash := txHash, OutputIndex := outIdx, UnlockingScript := unlockingScript,
    Amount := amt }

/-- Go `Wallet.HndlBlk`; `none` is the nil block.  `oldTransactions` is bound to
the second value returned by `ChkTxs`. -/
def Wallet.HndlBlk (w : Wallet) (b : Option Block) : Wallet :=
  match b with
  | none => w
  | some b =>
    let oldTransactions := (w.LmnlTxs.ChkTxs b.Transactions).2.2
    oldTransactions.foldl
      (fun w trans => { w with LmnlTxs := w.LmnlTxs.Add trans, SendTx := w.SendTx ++ [trans] })
      { w with LmnlTxs := (w.LmnlTxs.ChkTxs b.Transactions).1 }

/-- The transaction that `HndlTxReq` assembles for a request, from the result of
`GetUTXOForAmt`. -/
def buildTx (w : Wallet) (txR : TxReq) (utxoForTransaction : List UTXOInfo) (change : Nat) :
    Transaction :=
  let publicKey := hexEncode w.Id
  let txInputs := utxoForTransaction.map
    (fun info => NewTxInpt info.TxHsh info.OutIdx publicKey info.Amt)
  let txOutputs := [NewTxOutpt txR.Amt (hexEncode txR.PubK)] ++
    (if change > 0 then [NewTxOutpt change publicKey] else [])
  NewTx w.Conf.TxVer txInputs txOutputs w.Conf.DefLckTm

/-- Go `Wallet.HndlTxReq`; `none` is the nil request. -/
def Wallet.HndlTxReq (prs : String → String × Nat) (w : Wallet) (txR : Option TxReq) : Wallet :=
  match txR with
  | none => w
  | some txR =>
    if txR.Amt = 0 then w
    else
      let found := GetUTXOForAmt prs w.Chain txR.Amt (hexEncode w.Id)
      if !found.2.2 then w
      else
        let deserializedTx := buildTx w txR found.1 found.2.1
        { w with LmnlTxs := w.LmnlTxs.Add deserializedTx, SendTx := w.SendTx ++ [deserializedTx] }

/-- The sum of the amounts of the UTXO that the inputs of a transaction reference
in the main-chain tip snapshot, over the natural numbers (a reference that
misses counts 0). -/
def referencedSum (bc : Blockchain) (t : Transaction) : Nat :=
  (t.Inputs.map (fun i => ((GetUTXO bc i).map (fun o => o.Amount)).getD 0)).sum

/-! ## Concrete values used to evaluate the wallet -/

/-- A configuration whose genesis output of 50 is locked to `"50"`, the hex
encoding of the key byte `0x50`. -/
def demoConfHex : Config := { InitSbsdy := 50, GenPK := "50" }

/-- A wallet of key `0x50` on the genesis-only store of `demoConfHex`, with resend
threshold 2, an empty liminal queue and nothing sent. -/
def demoWallet : Wallet :=
  { Conf := { TxVer := 1, DefLckTm := 0, TxRplyThresh := 2 },
    Id := [80],
    Chain := New demoH demoConfHex,
    SendTx := [],
    LmnlTxs := { TxQ := [], TxRplyThresh := 2 } }

/-- The transaction the wallet emits for the request `{0x51, 10, fee 5}`: one
input of 50, 10 to `"51"` and 40 back to `"50"`. -/
def demoTxWallet : Transaction :=
  NewTx 1 [NewTxInpt "T0" 0 "50" 50] [NewTxOutpt 10 "51", NewTxOutpt 40 "50"] 0

/-- The wallet after the request `{0x51, 10, fee 5}`. -/
def demoWalletSent : Wallet :=
  Wallet.HndlTxReq demoPrsTXOLoc demoWallet (some { PubK := [81], Amt := 10, Fee := 5 })

/-- A safe-depth block that contains `demoTxWallet`. -/
def demoBlkConfirm : Block :=
  demoBlock "<" "c" [NewTx 0 [] [NewTxOutpt 25 "M"] 1, demoTxWallet]

/-- A transaction spending the genesis output of 50 with an amount hint of 1000
and paying 900 to `"Q"`. -/
def demoTxHint : Transaction :=
  NewTx 0 [{ TransactionHash := "T0", OutputIndex := 0, UnlockingScript := "P", Amount := 1000 }]
    [NewTxOutpt 900 "Q"] 8

/-- A miner with an empty pool and `PriLim = 0`. -/
def demoMinerIdle : Miner :=
  { Conf := { demoMinerConf with PriLim := 0 },
    TxP := NewTxPool { demoMinerConf with PriLim := 0 },
    ChnLen := 0, PrvHsh := "<", PubKey := [80] }

/-- A miner whose pool holds `demoTxPay` (size 100, priority 10, `PriLim = 1`):
with `BlkSz = 200` the transaction does not fit. -/
def demoMinerTight : Miner :=
  { Conf := demoMinerConf,
    TxP := { CurPri := 10, PriLim := 1, TxQ := [{ P := 10, T := demoTxPay }], Ct := 1, Cap := 200 },
    ChnLen := 0, PrvHsh := "<", PubKey := [80] }

/-- A liminal queue holding `demoTxPay` at priority 1, with resend threshold 2. -/
def demoLiminal : LiminalTxs :=
  { TxQ := [{ P := 1, T := demoTxPay }], TxRplyThresh := 2 }

/-- Package methods with a proof of work that depends on the nonce: a block
satisfies the target when its nonce plus one is a multiple of the length of the
target plus one. -/
def demoPkgPow : Pkg :=
  { demoPkg with
    SatisfiesPOW := fun b target => decide ((b.Hdr.Nonce + 1) % (target.length + 1) = 0) }

/-- A miner with nonce limit 100 and the four-character target `"0fff"`: the
least nonce satisfying `demoPkgPow` is 4. -/
def demoMinerPow : Miner :=
  { Conf := { demoMinerConf with InitPOWD := "0fff" },
    TxP := NewTxPool demoMinerConf, ChnLen := 0, PrvHsh := "<", PubKey := [80] }

/-! ## The snapshot derivation as a statement on lookups -/

/-- What a lookup finds once the key `key` has been removed: nothing under `key`,
the previous answer under every other key. -/
def lookupErase (g : String → Option TransactionOutput) (key : String) :
    String → Option TransactionOutput :=
  fun k => if key = k then none else g k

/-- What a lookup finds once `o` has been inserted under `key`: `o` under `key`,
the previous answer under every other key. -/
def lookupInsert (g : String → Option TransactionOutput) (key : String) (o : TransactionOutput) :
    String → Option TransactionOutput :=
  fun k => if key = k then some o else g k

/-- The lookups of the snapshot the specification prescribes after one
transaction, from the lookups `g` before it: every TXO key referenced by an
input is removed, then each output `i` is inserted under `MkTXOLoc(txHash, i)`.
No operation of the map model is used. -/
def specLookupTx (H : Hashing) (g : String → Option TransactionOutput) (t : Transaction) :
    String → Option TransactionOutput :=
  t.Outputs.enum.foldl (fun acc io => lookupInsert acc (MkTXOLoc (H.txHash t) io.1) io.2)
    (t.Inputs.foldl
      (fun acc i => lookupErase acc (MkTXOLoc i.TransactionHash i.OutputIndex)) g)

/-- The lookups of the snapshot the specification prescribes after the
transactions of a block, in block order. -/
def specLookupBlock (H : Hashing) (g : String → Option TransactionOutput)
    (txs : List Transaction) : String → Option TransactionOutput :=
  txs.foldl (specLookupTx H) g

/-- The keys under which a transaction inserts its outputs. -/
def outputKeys (H : Hashing) (t : Transaction) : List String :=
  t.Outputs.enum.map (fun io => MkTXOLoc (H.txHash t) io.1)

/-- The keys referenced by the inputs of a transaction. -/
def inputKeys (t : Transaction) : List String :=
  t.Inputs.map (fun i => MkTXOLoc i.TransactionHash i.OutputIndex)

/-! ## Lemmas on Go maps -/

theorem GoMap.get_delete {V : Type} (m : GoMap V) (k k' : String) :
    (m.delete k).get k' = if k = k' then none else m.get k' := by
  induction m with
  | nil => simp [GoMap.delete, GoMap.get]
  | cons e rest ih =>
    obtain ⟨a, v⟩ := e
    by_cases h1 : a = k
    · subst h1
      by_cases h2 : a = k'
      · subst h2
        simpa [GoMap.delete] using ih
      · simp [GoMap.delete, GoMap.get, ih, h2]
    · by_cases h2 : a = k'
      · subst h2
        have h3 : ¬ k = a := fun h => h1 h.symm
        simp [GoMap.delete, GoMap.get, h1, h3]
      · simp [GoMap.delete, GoMap.get, h1, h2, ih]

theorem GoMap.get_set {V : Type} (m : GoMap V) (k k' : String) (v : V) :
    (m.set k v).get k' = if k = k' then some v else m.get k' := by
  induction m with
  | nil => simp [GoMap.set, GoMap.get]
  | cons e rest ih =>
    obtain ⟨a, w⟩ := e
    by_cases h1 : a = k
    · subst h1
      by_cases h2 : a = k'
      · simp [GoMap.set, GoMap.get, h2]
      · simp [GoMap.set, GoMap.get, h2, GoMap.get_delete]
    · by_cases h2 : a = k'
      · subst h2
        have h3 : ¬ k = a := fun h => h1 h.symm
        simp [GoMap.set, GoMap.get, h1, h3]
      · simp [GoMap.set, GoMap.get, h1, h2, ih]

/-! ## Shape of the nodes of a reachable store -/

theorem depth_mk (b : Block) (p : Option BlockchainNode) (u : Nat) (d : Int) :
    (BlockchainNode.mk b p u d).depth = d := rfl

theorem utxo_mk (b : Block) (p : Option BlockchainNode) (u : Nat) (d : Int) :
    (BlockchainNode.mk b p u d).utxo = u := rfl

theorem chain_genesisNode (conf : Config) :
    (genesisNode conf).chain = [genesisNode conf] := by
  simp [genesisNode, BlockchainNode.chain]

theorem chain_child (b : Block) (p : BlockchainNode) (u : Nat) (d : Int) :
    (BlockchainNode.mk b (some p) u d).chain = BlockchainNode.mk b (some p) u d :: p.chain := by
  simp [BlockchainNode.chain]

theorem Good.depth_nonneg {conf : Config} {n : BlockchainNode} (h : Good conf n) :
    0 ≤ n.depth := by
  induction h with
  | genesis => simp [genesisNode, depth_mk]
  | child b p u _ ih => simp only [depth_mk]; omega

theorem Good.chain_good {conf : Config} {n : BlockchainNode} (h : Good conf n) :
    ∀ x ∈ n.chain, Good conf x := by
  induction h with
  | genesis =>
    intro x hx
    rw [chain_genesisNode] at hx
    simp at hx
    subst hx
    exact Good.genesis
  | child b p u hp ih =>
    intro x hx
    rw [chain_child] at hx
    rcases List.mem_cons.mp hx with h1 | h1
    · subst h1
      exact Good.child b p u hp
    · exact ih x h1

theorem Good.chain_depth_le {conf : Config} {n : BlockchainNode} (h : Good conf n) :
    ∀ x ∈ n.chain, x.depth ≤ n.depth := by
  induction h with
  | genesis =>
    intro x hx
    rw [chain_genesisNode] at hx
    simp at hx
    subst hx
    exact le_refl _
  | child b p u hp ih =>
    intro x hx
    rw [chain_child] at hx
    rcases List.mem_cons.mp hx with h1 | h1
    · subst h1
      exact le_refl _
    · have := ih x h1
      simp only [depth_mk]
      omega

theorem Good.genesis_mem_chain {conf : Config} {n : BlockchainNode} (h : Good conf n) :
    genesisNode conf ∈ n.chain := by
  induction h with
  | genesis => rw [chain_genesisNode]; simp
  | child b p u _ ih => rw [chain_child]; exact List.mem_cons_of_mem _ ih

theorem Good.eq_genesis_of_depth {conf : Config} {n : BlockchainNode} (h : Good conf n)
    (hd : n.depth ≤ 0) : n = genesisNode conf := by
  cases h with
  | genesis => rfl
  | child b p u hp =>
    have := hp.depth_nonneg
    simp only [depth_mk] at hd
    omega

theorem Good.self_mem_chain (n : BlockchainNode) : n ∈ n.chain := by
  cases n with
  | mk b p u d =>
    cases p with
    | none => simp [BlockchainNode.chain]
    | some q => simp [BlockchainNode.chain]

theorem StoreInv_New (H : Hashing) (conf : Config) : StoreInv conf (New H conf) := by
  refine ⟨Good.genesis, ?_, ?_⟩
  · intro k m hm
    simp only [New, GoMap.get] at hm
    split at hm
    · cases hm; exact Good.genesis
    · cases hm
  · intro k m hm
    simp only [New, GoMap.get] at hm
    split at hm
    · cases hm; exact le_refl _
    · cases hm

theorem StoreInv_Add (H : Hashing) (conf : Config) (bc : Blockchain) (ob : Option Block)
    (h : StoreInv conf bc) : StoreInv conf (Add H bc ob) := by
  cases ob with
  | none => exact h
  | some b =>
    unfold Add
    simp only
    cases hp : bc.blocks.get b.Hdr.PrvBlkHsh with
    | none => exact h
    | some lastNode =>
      have hl : Good conf lastNode := h.blocks_good _ _ hp
      have hbn : Good conf (BlockchainNode.mk b (some lastNode) lastNode.utxo (lastNode.depth + 1)) :=
        Good.child b lastNode lastNode.utxo hl
      simp only
      refine ⟨?_, ?_, ?_⟩
      · simp only [depth_mk]
        split
        · exact hbn
        · exact h.tip_good
      · intro k m hm
        simp only [GoMap.get_set] at hm
        split at hm
        · cases hm; exact hbn
        · exact h.blocks_good k m hm
      · intro k m hm
        simp only [GoMap.get_set] at hm
        simp only [depth_mk]
        split at hm
        · cases hm
          split <;> simp only [depth_mk] <;> omega
        · have := h.blocks_le k m hm
          split
          · simp only [depth_mk]; omega
          · exact this

theorem Reachable.inv {H : Hashing} {conf : Config} {bc : Blockchain}
    (h : Reachable H conf bc) : StoreInv conf bc := by
  induction h with
  | init => exact StoreInv_New H conf
  | add bc b _ ih => exact StoreInv_Add H conf bc b ih

theorem InStore.good {conf : Config} {bc : Blockchain} (h : StoreInv conf bc)
    {n : BlockchainNode} (hn : InStore bc n) : Good conf n := by
  rcases hn with h1 | ⟨k, m, hm, h1⟩
  · exact h.tip_good.chain_good n h1
  · exact (h.blocks_good k m hm).chain_good n h1

theorem InStore.depth_le {conf : Config} {bc : Blockchain} (h : StoreInv conf bc)
    {n : BlockchainNode} (hn : InStore bc n) : n.depth ≤ bc.LastBlock.depth := by
  rcases hn with h1 | ⟨k, m, hm, h1⟩
  · exact h.tip_good.chain_depth_le n h1
  · exact le_trans ((h.blocks_good k m hm).chain_depth_le n h1) (h.blocks_le k m hm)

/-! ## What `Add` does when the parent is known -/

theorem Add_known (H : Hashing) (bc : Blockchain) (b : Block) (lastNode : BlockchainNode)
    (hp : bc.blocks.get b.Hdr.PrvBlkHsh = some lastNode) :
    Add H bc (some b) =
      { heap := bc.heap.set lastNode.utxo (applyBlock H (bc.deref lastNode.utxo) b),
        blocks := bc.blocks.set (H.blkHash b)
          (BlockchainNode.mk b (some lastNode) lastNode.utxo (lastNode.depth + 1)),
        LastBlock :=
          if lastNode.depth + 1 > bc.LastBlock.depth then
            BlockchainNode.mk b (some lastNode) lastNode.utxo (lastNode.depth + 1)
          else bc.LastBlock } := by
  simp [Add, hp, depth_mk]

theorem Reachable.keys_are_hashes {H : Hashing} {conf : Config} {bc : Blockchain}
    (hr : Reachable H conf bc) :
    ∀ k n, bc.blocks.get k = some n → k = H.blkHash n.Block := by
  induction hr with
  | init =>
    intro k n hn
    simp only [New, GoMap.get] at hn
    split at hn
    · rename_i hk
      cases hn
      exact hk.symm
    · cases hn
  | add bc ob _ ih =>
    cases ob with
    | none => exact ih
    | some b =>
      cases hp : bc.blocks.get b.Hdr.PrvBlkHsh with
      | none =>
        have : Add H bc (some b) = bc := by simp [Add, hp]
        rw [this]; exact ih
      | some lastNode =>
        rw [Add_known H bc b lastNode hp]
        intro k n hn
        simp only [GoMap.get_set] at hn
        split at hn
        · rename_i hk
          cases hn
          exact hk.symm
        · exact ih k n hn

theorem Reachable.genesis_entry {H : Hashing} {conf : Config} {bc : Blockchain}
    (hne : ∀ b, H.blkHash b ≠ "")
    (hcoll : ∀ b, H.blkHash b = H.blkHash (GenesisBlock conf) → b.Hdr.PrvBlkHsh = "")
    (hr : Reachable H conf bc) :
    bc.blocks.get (H.blkHash (GenesisBlock conf)) = some (genesisNode conf) := by
  induction hr with
  | init => simp [New, GoMap.get]
  | add bc ob hr ih =>
    cases ob with
    | none => exact ih
    | some b =>
      cases hp : bc.blocks.get b.Hdr.PrvBlkHsh with
      | none =>
        have : Add H bc (some b) = bc := by simp [Add, hp]
        rw [this]; exact ih
      | some lastNode =>
        rw [Add_known H bc b lastNode hp]
        simp only [GoMap.get_set]
        have hk := hr.keys_are_hashes _ _ hp
        have hne2 : H.blkHash b ≠ H.blkHash (GenesisBlock conf) := by
          intro he
          have h0 := hcoll b he
          rw [h0] at hk
          exact hne _ hk.symm
        simp [hne2, ih]

theorem append_dash_zero (s : String) : s ++ "-" ++ toString 0 = s ++ "-0" := by
  rw [String.append_assoc]
  rfl

theorem length_lt_sign : "<".length = 1 := by decide

theorem demoBlkHash_ne_empty (b : Block) : demoH.blkHash b ≠ "" := by
  intro h
  have hl := congrArg String.length h
  simp only [demoH, demoBlkHash, String.length_append, length_lt_sign] at hl
  have h0 : "".length = 0 := rfl
  omega

theorem demoBlkHash_genesis (conf : Config) (b : Block)
    (h : demoH.blkHash b = demoH.blkHash (GenesisBlock conf)) : b.Hdr.PrvBlkHsh = "" := by
  have hl := congrArg String.length h
  simp only [demoH, demoBlkHash, GenesisBlock, String.length_append, length_lt_sign] at hl
  have h0 : "".length = 0 := rfl
  have hp : b.Hdr.PrvBlkHsh.length = 0 := by omega
  generalize b.Hdr.PrvBlkHsh = p at hp
  cases p with
  | mk l =>
    cases l with
    | nil => rfl
    | cons c cs => simp [String.length] at hp

/-! ## Arithmetic of the two accumulating loops -/

theorem GetBalance_fold (pk : String) (m : UTXOMap) (bal : Nat) (hb : bal < u32) :
    m.foldl (fun bal kv => if kv.2.LockingScript = pk then (bal + kv.2.Amount) % u32 else bal) bal
      = (bal + lockedSum m pk) % u32 := by
  induction m generalizing bal with
  | nil => simp [lockedSum, Nat.mod_eq_of_lt hb]
  | cons kv rest ih =>
    simp only [List.foldl_cons, lockedSum]
    by_cases hk : kv.2.LockingScript = pk
    · simp only [hk, if_true]
      have hpos : 0 < u32 := by decide
      rw [ih _ (Nat.mod_lt _ hpos), Nat.mod_add_mod, Nat.add_assoc]
    · simp only [hk, if_false, Nat.zero_add]
      exact ih bal hb

theorem infoSum_append (l : List UTXOInfo) (i : UTXOInfo) :
    infoSum (l ++ [i]) = infoSum l + i.Amt := by
  induction l with
  | nil => simp [infoSum]
  | cons x rest ih => simp [infoSum, ih, Nat.add_assoc]

theorem GetUTXOForAmtLoop_sum (prs : String → String × Nat) (amt : Nat) (pubKey : String)
    (entries : List (String × TransactionOutput)) (avail : Nat) (acc : List UTXOInfo)
    (hinv : avail = infoSum acc % u32) (set : List UTXOInfo) (change : Nat)
    (h : GetUTXOForAmtLoop prs amt pubKey entries avail acc = (set, change, true)) :
    infoSum set % u32 = amt + change := by
  induction entries generalizing avail acc with
  | nil => simp [GetUTXOForAmtLoop] at h
  | cons e rest ih =>
    obtain ⟨key, output⟩ := e
    have hpos : 0 < u32 := by decide
    simp only [GetUTXOForAmtLoop] at h
    by_cases hk : output.LockingScript = pubKey
    · simp only [if_pos hk] at h
      have hinv2 : (avail + output.Amount) % u32
          = infoSum (acc ++ [UTXOInfo.mk (prs key).1 (prs key).2 output output.Amount]) % u32 := by
        rw [infoSum_append, hinv, Nat.mod_add_mod]
      split at h
      · rename_i hge
        simp only [Prod.mk.injEq, and_true] at h
        obtain ⟨h1, h2⟩ := h
        subst h1
        rw [← hinv2]
        have hlt : (avail + output.Amount) % u32 < u32 := Nat.mod_lt _ hpos
        have h3 : ((avail + output.Amount) % u32 - amt) % u32
            = (avail + output.Amount) % u32 - amt := Nat.mod_eq_of_lt (by omega)
        rw [h3] at h2
        omega
      · exact ih _ _ hinv2 h
    · simp only [if_neg hk] at h
      split at h
      · rename_i hge
        simp only [Prod.mk.injEq, and_true] at h
        obtain ⟨h1, h2⟩ := h
        subst h1
        have hlt : avail < u32 := by rw [hinv]; exact Nat.mod_lt _ hpos
        have h3 : (avail - amt) % u32 = avail - amt := Nat.mod_eq_of_lt (by omega)
        rw [h3] at h2
        rw [← hinv]
        omega
      · exact ih _ _ hinv h

/-! ## Lemmas on the validator -/

theorem ChkTx_coinbase (P : Pkg) (n : Node) (addr : Nat → Nat) (t : Transaction)
    (h : IsCoinbase t = true) : ChkTx P n addr (some t) = false := by
  have hl : t.Inputs.length = 0 := by
    cases hi : t.Inputs with
    | nil => rfl
    | cons x xs => simp [IsCoinbase, hi] at h
  simp [ChkTx, hl]

theorem ChkBlk_false (P : Pkg) (addr : Nat → Nat → Nat) (n : Option Node) (b : Option Block) :
    ChkBlk P addr n b = false := by
  cases b with
  | none => simp [ChkBlk]
  | some b =>
    cases n with
    | none => simp [ChkBlk]
    | some n =>
      cases ht : b.Transactions with
      | nil => simp [ChkBlk, ht]
      | cons first rest =>
        by_cases hc : IsCoinbase first = true
        · have h0 := ChkTx_coinbase P n (addr 0) first hc
          simp [ChkBlk, ht, ChkBlkLoop, h0]
        · simp [ChkBlk, ht, hc]

/-! ## Lemmas on the `uint32` sums -/

theorem u32_pos : 0 < u32 := by decide

theorem SumInputs_lt (t : Transaction) : SumInputs t < u32 := by
  unfold SumInputs
  have key : ∀ (l : List TransactionInput) (acc : Nat), acc < u32 →
      l.foldl (fun sum txi => (sum + txi.Amount) % u32) acc < u32 := by
    intro l
    induction l with
    | nil => intro acc h; simpa using h
    | cons x rest ih =>
      intro acc _
      simp only [List.foldl_cons]
      exact ih _ (Nat.mod_lt _ u32_pos)
  exact key _ 0 u32_pos

theorem SumOutputs_lt (t : Transaction) : SumOutputs t < u32 := by
  unfold SumOutputs
  have key : ∀ (l : List TransactionOutput) (acc : Nat), acc < u32 →
      l.foldl (fun sum txo => (sum + txo.Amount) % u32) acc < u32 := by
    intro l
    induction l with
    | nil => intro acc h; simpa using h
    | cons x rest ih =>
      intro acc _
      simp only [List.foldl_cons]
      exact ih _ (Nat.mod_lt _ u32_pos)
  exact key _ 0 u32_pos

theorem wrap_sub_of_le (a b : Nat) (ha : a < u32) (hb : b ≤ a) :
    (a + u32 - b) % u32 = a - b := by
  have h1 : a + u32 - b = (a - b) + u32 := by omega
  rw [h1, Nat.add_mod_right]
  exact Nat.mod_eq_of_lt (by omega)

/-! ## Lemmas on the transaction pool -/

theorem u32_eq : u32 = 4294967296 := by decide

theorem CalcPri_lt (P : Pkg) (t : Transaction) (p : Nat) (h : CalcPri P (some t) = some p) :
    p < u32 := by
  simp only [CalcPri] at h
  split at h
  · cases h
  · split at h
    · cases h
      decide
    · cases h
      exact lt_of_le_of_lt (Nat.div_le_self _ _) (Nat.mod_lt _ u32_pos)

theorem priOf_of_CalcPri (P : Pkg) (t : Transaction) (p : Nat)
    (h : CalcPri P (some t) = some p) : priOf P t = p := by
  simp [priOf, h]

theorem Heap.Add_perm (h : Heap) (p : Nat) (t : Transaction) :
    (Heap.Add h p t).Perm ({ P := p, T := t } :: h) := by
  induction h with
  | nil => exact List.Perm.refl _
  | cons x rest ih =>
    simp only [Heap.Add]
    split
    · exact List.Perm.refl _
    · exact (List.Perm.cons x ih).trans (List.Perm.swap _ _ _)

theorem Heap.length_Add (h : Heap) (p : Nat) (t : Transaction) :
    (Heap.Add h p t).length = h.length + 1 := by
  simpa using (Heap.Add_perm h p t).length_eq

theorem queuedPriSum_Add (P : Pkg) (h : Heap) (p : Nat) (t : Transaction) :
    queuedPriSum P (Heap.Add h p t) = priOf P t + queuedPriSum P h := by
  unfold queuedPriSum
  rw [((Heap.Add_perm h p t).map (fun x => priOf P x.T)).sum_eq]
  simp

theorem Heap.Rmv_sum (P : Pkg) (h : Heap) (txs : List Transaction) :
    queuedPriSum P h
      = queuedPriSum P (Heap.Rmv h txs).1 + ((Heap.Rmv h txs).2.map (priOf P)).sum := by
  induction h with
  | nil => simp [Heap.Rmv, queuedPriSum]
  | cons x rest ih =>
    simp only [Heap.Rmv, queuedPriSum] at ih ⊢
    by_cases hx : x.T ∈ txs
    · simp only [List.filter_cons, hx, not_true_eq_false, decide_False, decide_True, if_true,
        Bool.false_eq_true, if_false, List.map_cons, List.sum_cons]
      omega
    · simp only [List.filter_cons, hx, not_false_eq_true, decide_False, decide_True, if_true,
        Bool.false_eq_true, if_false, List.map_cons, List.sum_cons]
      omega

theorem Heap.Rmv_length (h : Heap) (txs : List Transaction) :
    h.length = (Heap.Rmv h txs).1.length + (Heap.Rmv h txs).2.length := by
  induction h with
  | nil => simp [Heap.Rmv]
  | cons x rest ih =>
    simp only [Heap.Rmv, List.length_map] at ih ⊢
    by_cases hx : x.T ∈ txs
    · simp only [List.filter_cons, hx, not_true_eq_false, decide_False, decide_True, if_true,
        Bool.false_eq_true, if_false, List.length_cons]
      omega
    · simp only [List.filter_cons, hx, not_false_eq_true, decide_False, decide_True, if_true,
        Bool.false_eq_true, if_false, List.length_cons]
      omega

theorem priorityRemovedLoop_eq (P : Pkg) (l : List Transaction) (acc r : Nat) (hacc : acc < u32)
    (h : priorityRemovedLoop P l acc = some r) :
    r = (acc + (l.map (priOf P)).sum) % u32 := by
  induction l generalizing acc with
  | nil =>
    simp only [priorityRemovedLoop, Option.some.injEq] at h
    subst h
    simp [Nat.mod_eq_of_lt hacc]
  | cons t rest ih =>
    simp only [priorityRemovedLoop] at h
    cases hc : CalcPri P (some t) with
    | none => simp [hc] at h
    | some pri =>
      simp only [hc] at h
      have := ih _ (Nat.mod_lt _ u32_pos) h
      rw [this, List.map_cons, List.sum_cons, priOf_of_CalcPri P t pri hc, Nat.mod_add_mod,
        Nat.add_assoc]

theorem TxPool.Add_cases (P : Pkg) (tp tp' : TxPool) (t : Transaction)
    (h : TxPool.Add P tp (some t) = some tp') :
    (¬ tp.Ct < tp.Cap ∧ tp' = tp) ∨
    (tp.Ct < tp.Cap ∧ ∃ p, CalcPri P (some t) = some p ∧
      tp' = { tp with CurPri := (tp.CurPri + p) % u32, Ct := (tp.Ct + 1) % u32,
                      TxQ := tp.TxQ.Add p t }) := by
  simp only [TxPool.Add] at h
  by_cases hlt : tp.Ct < tp.Cap
  · right
    simp only [hlt, if_true] at h
    cases hc : CalcPri P (some t) with
    | none => simp [hc] at h
    | some p =>
      simp only [hc, Option.some.injEq] at h
      exact ⟨hlt, p, rfl, h.symm⟩
  · left
    simp only [hlt, if_false, Option.some.injEq] at h
    exact ⟨hlt, h.symm⟩

theorem TxPool.ChkTxs_cases (P : Pkg) (tp tp' : TxPool) (remover : List Transaction)
    (h : TxPool.ChkTxs P tp remover = some tp') :
    ((tp.TxQ.Rmv remover).2 = [] ∧ tp' = { tp with TxQ := (tp.TxQ.Rmv remover).1 }) ∨
    ((tp.TxQ.Rmv remover).2 ≠ [] ∧ ∃ pr,
      priorityRemovedLoop P (tp.TxQ.Rmv remover).2 0 = some pr ∧
      tp' = { tp with TxQ := (tp.TxQ.Rmv remover).1,
                      CurPri := (tp.CurPri + u32 - pr) % u32,
                      Ct := (tp.Ct + u32 - (tp.TxQ.Rmv remover).2.length % u32) % u32 }) := by
  simp only [TxPool.ChkTxs] at h
  by_cases he : (tp.TxQ.Rmv remover).2 = []
  · left
    simp only [he, if_true, Option.some.injEq] at h
    exact ⟨he, h.symm⟩
  · right
    simp only [he, if_false] at h
    cases hc : priorityRemovedLoop P (tp.TxQ.Rmv remover).2 0 with
    | none => simp [hc] at h
    | some pr =>
      simp only [hc, Option.some.injEq] at h
      exact ⟨he, pr, rfl, h.symm⟩

theorem PoolInv_New (P : Pkg) (c : MinerConfig) : PoolInv P c (NewTxPool c) := by
  refine ⟨rfl, Nat.zero_le _, rfl, ?_⟩
  simp [NewTxPool, queuedPriSum]

theorem PoolInv_Add (P : Pkg) (c : MinerConfig) (hcap : c.TxPCap < u32) (tp tp' : TxPool)
    (t : Option Transaction) (hi : PoolInv P c tp) (h : TxPool.Add P tp t = some tp') :
    PoolInv P c tp' := by
  cases t with
  | none =>
    simp only [TxPool.Add, Option.some.injEq] at h
    subst h
    exact hi
  | some t =>
    rcases TxPool.Add_cases P tp tp' t h with ⟨_, rfl⟩ | ⟨hlt, p, hp, rfl⟩
    · exact hi
    · have h1 := hi.ct_len
      have h2 := hi.ct_le
      have h3 := hi.cap_eq
      have h4 := hi.pri_sum
      have hu := u32_eq
      refine ⟨?_, ?_, h3, ?_⟩
      · simp only [Heap.length_Add]
        rw [Nat.mod_eq_of_lt (by omega)]
        omega
      · simp only
        rw [Nat.mod_eq_of_lt (by omega)]
        omega
      · simp only [queuedPriSum_Add, priOf_of_CalcPri P t p hp]
        rw [h4, Nat.mod_add_mod, Nat.add_comm]

theorem PoolInv_ChkTxs (P : Pkg) (c : MinerConfig) (hcap : c.TxPCap < u32) (tp tp' : TxPool)
    (remover : List Transaction) (hi : PoolInv P c tp)
    (h : TxPool.ChkTxs P tp remover = some tp') : PoolInv P c tp' := by
  have h1 := hi.ct_len
  have h2 := hi.ct_le
  have h3 := hi.cap_eq
  have h4 := hi.pri_sum
  have hu := u32_eq
  have hs := Heap.Rmv_sum P tp.TxQ remover
  have hl := Heap.Rmv_length tp.TxQ remover
  rcases TxPool.ChkTxs_cases P tp tp' remover h with ⟨he, rfl⟩ | ⟨_, pr, hpr, rfl⟩
  · rw [he] at hs hl
    simp only [List.map_nil, List.sum_nil, List.length_nil, Nat.add_zero] at hs hl
    refine ⟨?_, h2, h3, ?_⟩
    · simp only; omega
    · simp only; rw [← hs]; exact h4
  · have hr := priorityRemovedLoop_eq P _ 0 pr u32_pos hpr
    rw [Nat.zero_add] at hr
    refine ⟨?_, ?_, h3, ?_⟩
    · simp only [hu] at hcap ⊢
      omega
    · simp only [hu] at hcap ⊢
      omega
    · simp only
      rw [h4, hs, hr]
      generalize queuedPriSum P (Heap.Rmv tp.TxQ remover).1 = a
      generalize (List.map (priOf P) (Heap.Rmv tp.TxQ remover).2).sum = b
      rw [hu]
      omega

theorem PoolReachable.poolInv {P : Pkg} {c : MinerConfig} (hcap : c.TxPCap < u32) {tp : TxPool}
    (h : PoolReachable P c tp) : PoolInv P c tp := by
  induction h with
  | init => exact PoolInv_New P c
  | add tp tp' t _ hadd ih => exact PoolInv_Add P c hcap tp tp' t ih hadd
  | chk tp tp' r _ hchk ih => exact PoolInv_ChkTxs P c hcap tp tp' r ih hchk

theorem Heap.mem_Add (h : Heap) (p : Nat) (t : Transaction) (x : HeapItem) :
    x ∈ Heap.Add h p t ↔ x = { P := p, T := t } ∨ x ∈ h := by
  rw [(Heap.Add_perm h p t).mem_iff, List.mem_cons]

theorem PoolReachable.pri_stored {P : Pkg} {c : MinerConfig} {tp : TxPool}
    (h : PoolReachable P c tp) : ∀ x ∈ tp.TxQ, CalcPri P (some x.T) = some x.P := by
  induction h with
  | init => intro x hx; simp [NewTxPool] at hx
  | add tp tp' t _ hadd ih =>
    cases t with
    | none =>
      simp only [TxPool.Add, Option.some.injEq] at hadd
      subst hadd
      exact ih
    | some t =>
      rcases TxPool.Add_cases P tp tp' t hadd with ⟨_, rfl⟩ | ⟨_, p, hp, rfl⟩
      · exact ih
      · intro x hx
        simp only [Heap.mem_Add] at hx
        rcases hx with rfl | hx
        · exact hp
        · exact ih x hx
  | chk tp tp' r _ hchk ih =>
    rcases TxPool.ChkTxs_cases P tp tp' r hchk with ⟨_, rfl⟩ | ⟨_, pr, _, rfl⟩
    · intro x hx
      simp only [Heap.Rmv] at hx
      exact ih x (List.mem_filter.mp hx).1
    · intro x hx
      simp only [Heap.Rmv] at hx
      exact ih x (List.mem_filter.mp hx).1

theorem PoolReachable.curPri_lt {P : Pkg} {c : MinerConfig} {tp : TxPool}
    (h : PoolReachable P c tp) : tp.CurPri < u32 := by
  induction h with
  | init => exact u32_pos
  | add tp tp' t _ hadd ih =>
    cases t with
    | none =>
      simp only [TxPool.Add, Option.some.injEq] at hadd
      subst hadd
      exact ih
    | some t =>
      rcases TxPool.Add_cases P tp tp' t hadd with ⟨_, rfl⟩ | ⟨_, p, _, rfl⟩
      · exact ih
      · exact Nat.mod_lt _ u32_pos
  | chk tp tp' r _ hchk ih =>
    rcases TxPool.ChkTxs_cases P tp tp' r hchk with ⟨_, rfl⟩ | ⟨_, pr, _, rfl⟩
    · exact ih
    · exact Nat.mod_lt _ u32_pos

theorem PoolReachable.addAll (P : Pkg) (c : MinerConfig) (ts : List Transaction) (tp : TxPool)
    (h : PoolReachable P c tp) :
    PoolReachable P c (ts.foldl (fun tp t => (TxPool.Add P tp (some t)).getD tp) tp) := by
  induction ts generalizing tp with
  | nil => exact h
  | cons t rest ih =>
    simp only [List.foldl_cons]
    apply ih
    cases ha : TxPool.Add P tp (some t) with
    | none => simpa using h
    | some tp' => simpa using PoolReachable.add tp tp' (some t) h ha

theorem Heap.Rmv_absent (h : Heap) (T : Transaction) (hn : ∀ x ∈ h, x.T ≠ T) :
    (Heap.Rmv h [T]).2 = [] := by
  simp only [Heap.Rmv, List.map_eq_nil_iff, List.filter_eq_nil_iff]
  intro x hx
  simp [hn x hx]

theorem Heap.Rmv_Add_absent (h : Heap) (p : Nat) (T : Transaction) (hn : ∀ x ∈ h, x.T ≠ T) :
    (Heap.Rmv (Heap.Add h p T) [T]).2 = [T] := by
  have hp := (((Heap.Add_perm h p T).filter (fun x => decide (x.T ∈ [T]))).map (fun x => x.T))
  have h0 := Heap.Rmv_absent h T hn
  simp only [Heap.Rmv] at h0 ⊢
  simp only [List.filter_cons, List.mem_singleton, decide_True, if_true, List.map_cons] at hp h0 ⊢
  rw [h0] at hp
  exact List.perm_singleton.mp hp

/-! ## Lemmas on the miner -/

theorem sizeSum_cons (P : Pkg) (t : Transaction) (l : List Transaction) :
    sizeSum P (t :: l) = P.TxSz t + sizeSum P l := by
  simp [sizeSum]

theorem NewMiningPoolLoop_spec (P : Pkg) (BlkSz : Nat) (q : List HeapItem) (blkSz : Nat)
    (txs : List Transaction) :
    ∃ k, k ≤ q.length ∧
      NewMiningPoolLoop P BlkSz q blkSz txs = txs ++ (q.take k).map (fun r => r.T) ∧
      (∀ j, 1 ≤ j → j ≤ k →
        (blkSz + sizeSum P ((q.take j).map (fun r => r.T))) % u32 < BlkSz) ∧
      (k < q.length →
        ¬ (blkSz + sizeSum P ((q.take (k + 1)).map (fun r => r.T))) % u32 < BlkSz) := by
  induction q generalizing blkSz txs with
  | nil =>
    refine ⟨0, Nat.le_refl _, by simp [NewMiningPoolLoop], ?_, ?_⟩
    · intro j h1 h2; omega
    · intro h; simp at h
  | cons r rest ih =>
    by_cases hfit : (blkSz + P.TxSz r.T) % u32 < BlkSz
    · obtain ⟨k, hk, heq, hfits, hstop⟩ := ih ((blkSz + P.TxSz r.T) % u32) (txs ++ [r.T])
      refine ⟨k + 1, by simpa using hk, ?_, ?_, ?_⟩
      · simp only [NewMiningPoolLoop, hfit, if_true, heq, List.take_succ_cons, List.map_cons,
          List.append_assoc, List.singleton_append]
      · intro j h1 h2
        obtain ⟨i, rfl⟩ : ∃ i, j = i + 1 := ⟨j - 1, by omega⟩
        simp only [List.take_succ_cons, List.map_cons, sizeSum_cons]
        by_cases hi : i = 0
        · subst hi
          simpa [sizeSum] using hfit
        · have := hfits i (by omega) (by omega)
          rw [Nat.mod_add_mod, Nat.add_assoc] at this
          exact this
      · intro hlt
        have hlt2 : k < rest.length := by simpa using hlt
        have := hstop hlt2
        simp only [List.take_succ_cons, List.map_cons, sizeSum_cons]
        rw [Nat.mod_add_mod, Nat.add_assoc] at this
        exact this
    · refine ⟨0, Nat.zero_le _, by simp [NewMiningPoolLoop, hfit], ?_, ?_⟩
      · intro j h1 h2; omega
      · intro _
        simpa [sizeSum] using hfit

theorem GenCBTxFees_some (txs : List Transaction) (acc : Nat) (hacc : acc < u32) :
    GenCBTxFees (txs.map some) acc
      = some ((acc + (txs.map (fun t => (SumInputs t + u32 - SumOutputs t) % u32)).sum) % u32) := by
  induction txs generalizing acc with
  | nil => simp [GenCBTxFees, Nat.mod_eq_of_lt hacc]
  | cons t rest ih =>
    simp only [List.map_cons, GenCBTxFees, List.sum_cons]
    rw [ih _ (Nat.mod_lt _ u32_pos), Nat.mod_add_mod, Nat.add_assoc]

theorem wrapFees_eq_plainFees (txs : List Transaction)
    (h : ∀ t ∈ txs, SumOutputs t ≤ SumInputs t) :
    (txs.map (fun t => (SumInputs t + u32 - SumOutputs t) % u32)).sum = plainFees txs := by
  induction txs with
  | nil => simp [plainFees]
  | cons t rest ih =>
    have h1 := h t (List.mem_cons_self _ _)
    have h2 := ih (fun y hy => h y (List.mem_cons_of_mem _ hy))
    simp only [plainFees, List.map_cons, List.sum_cons] at h2 ⊢
    rw [h2, wrap_sub_of_le _ _ (SumInputs_lt t) h1]

/-! ## Lemmas on the liminal queue -/

theorem Heap.Rmv_kept_of_absent (h : Heap) (txs : List Transaction)
    (hn : ∀ x ∈ h, x.T ∉ txs) : (Heap.Rmv h txs).1 = h := by
  simp only [Heap.Rmv, List.filter_eq_self]
  intro x hx
  simp [hn x hx]

theorem Heap.Rmv_kept_absent (h : Heap) (txs : List Transaction) :
    ∀ x ∈ (Heap.Rmv h txs).1, x.T ∉ txs := by
  intro x hx
  simp only [Heap.Rmv, List.mem_filter, decide_eq_true_eq] at hx
  exact hx.2

theorem Heap.IncAll_absent (h : Heap) (txs : List Transaction) (hn : ∀ x ∈ h, x.T ∉ txs) :
    ∀ x ∈ Heap.IncAll h, x.T ∉ txs := by
  intro x hx
  simp only [Heap.IncAll, List.mem_map] at hx
  obtain ⟨y, hy, rfl⟩ := hx
  exact hn y hy

theorem Heap.RemAbv_absent (h : Heap) (thresh : Nat) (txs : List Transaction)
    (hn : ∀ x ∈ h, x.T ∉ txs) : ∀ x ∈ (Heap.RemAbv h thresh).1, x.T ∉ txs := by
  intro x hx
  simp only [Heap.RemAbv, List.mem_filter] at hx
  exact hn x hx.1

theorem Heap.RemAbv_kept_of_le (h : Heap) (thresh : Nat) (hn : ∀ x ∈ h, x.P ≤ thresh) :
    (Heap.RemAbv h thresh).1 = h := by
  simp only [Heap.RemAbv, List.filter_eq_self]
  intro x hx
  have := hn x hx
  simp only [decide_eq_true_eq]
  omega

theorem ChkTxLoop_valid (P : Pkg) (chain : Blockchain) (l : List (Nat × TransactionInput))
    (seen : List Nat) (h : ChkTxLoop P chain l seen = true) :
    ∀ x ∈ l, IsInvalidInput chain x.2 = false := by
  induction l generalizing seen with
  | nil => intro x hx; cases hx
  | cons a rest ih =>
    obtain ⟨ptr, txInput⟩ := a
    simp only [ChkTxLoop] at h
    split at h
    · cases h
    · rename_i hv
      split at h
      · cases h
      · split at h
        · cases h
        · split at h
          · cases h
          · intro x hx
            rcases List.mem_cons.mp hx with rfl | hx
            · simpa using hv
            · exact ih _ h x hx

theorem inputPtrs_snd (addr : Nat → Nat) (t : Transaction) :
    (inputPtrs addr t).map Prod.snd = t.Inputs := by
  simp [inputPtrs, List.map_map, Function.comp_def, List.enum_map_snd]

/-! ## Lemmas on the nonce search -/

theorem setNonce_setNonce (b : Block) (i j : Nat) : setNonce (setNonce b i) j = setNonce b j := rfl

theorem CalcNonceLoop_found (P : Pkg) (target : String) (cancelled : Nat → Bool) (r i : Nat)
    (b : Block) (hc : ∀ k, i ≤ k → k < i + r → cancelled k = false) :
    ((CalcNonceLoop P target cancelled r i b).1 = true ↔
      ∃ n, i ≤ n ∧ n < i + r ∧ P.SatisfiesPOW (setNonce b n) target = true) ∧
    ((CalcNonceLoop P target cancelled r i b).1 = true →
      ∃ n, i ≤ n ∧ n < i + r ∧ (CalcNonceLoop P target cancelled r i b).2 = setNonce b n ∧
        P.SatisfiesPOW (setNonce b n) target = true ∧
        ∀ k, i ≤ k → k < n → P.SatisfiesPOW (setNonce b k) target = false) := by
  induction r generalizing i b with
  | zero =>
    constructor
    · constructor
      · intro h; simp [CalcNonceLoop] at h
      · rintro ⟨n, h1, h2, _⟩; omega
    · intro h; simp [CalcNonceLoop] at h
  | succ r ih =>
    have hci : cancelled i = false := hc i (Nat.le_refl _) (by omega)
    by_cases hp : P.SatisfiesPOW (setNonce b i) target = true
    · simp only [CalcNonceLoop, hci, hp, if_true, Bool.false_eq_true, if_false, true_iff,
        forall_true_left]
      exact ⟨⟨i, Nat.le_refl _, by omega, hp⟩,
        ⟨i, Nat.le_refl _, by omega, rfl, hp, fun k h1 h2 => by omega⟩⟩
    · have hpf : P.SatisfiesPOW (setNonce b i) target = false := by simpa using hp
      obtain ⟨ih1, ih2⟩ := ih (i + 1) (setNonce b i) (fun k h1 h2 => hc k (by omega) (by omega))
      simp only [setNonce_setNonce] at ih1 ih2
      simp only [CalcNonceLoop, hci, hpf, Bool.false_eq_true, if_false]
      constructor
      · rw [ih1]
        constructor
        · rintro ⟨n, h1, h2, h3⟩
          exact ⟨n, by omega, by omega, h3⟩
        · rintro ⟨n, h1, h2, h3⟩
          have hne : n ≠ i := by
            intro he
            rw [he, hpf] at h3
            cases h3
          exact ⟨n, by omega, by omega, h3⟩
      · intro h
        obtain ⟨n, h1, h2, h3, h4, h5⟩ := ih2 h
        refine ⟨n, by omega, by omega, h3, h4, ?_⟩
        intro k hk1 hk2
        by_cases hki : k = i
        · rw [hki]; exact hpf
        · exact h5 k (by omega) hk2

theorem CalcNonceLoop_cancelled (P : Pkg) (target : String) (cancelled : Nat → Bool)
    (r i c : Nat) (b : Block) (hic : i ≤ c) (hc : cancelled c = true)
    (hno : ∀ k, i ≤ k → k < c → P.SatisfiesPOW (setNonce b k) target = false) :
    (CalcNonceLoop P target cancelled r i b).1 = false := by
  induction r generalizing i b with
  | zero => simp [CalcNonceLoop]
  | succ r ih =>
    by_cases hci : cancelled i = true
    · simp [CalcNonceLoop, hci]
    · have hne : i ≠ c := by
        intro he
        rw [he] at hci
        exact hci hc
      have hpf := hno i (Nat.le_refl _) (by omega)
      have hcf : cancelled i = false := by simpa using hci
      simp only [CalcNonceLoop, hcf, hpf, Bool.false_eq_true, if_false]
      apply ih (i + 1) (setNonce b i) (by omega)
      intro k h1 h2
      rw [setNonce_setNonce]
      exact hno k (by omega) h2

/-! ## The snapshot derivation of `Add` and the words of the specification -/

theorem insertOutputs_eq (h : String) (outs : List TransactionOutput) (m : UTXOMap) (k : Nat)
    (hk : k + outs.length ≤ u32) :
    insertOutputs h m k outs
      = (outs.enumFrom k).foldl (fun acc io => acc.set (MkTXOLoc h io.1) io.2) m := by
  induction outs generalizing m k with
  | nil => simp [insertOutputs]
  | cons o rest ih =>
    have hlt : k < u32 := by simp only [List.length_cons] at hk; omega
    simp only [insertOutputs, List.enumFrom_cons, List.foldl_cons, Nat.mod_eq_of_lt hlt]
    exact ih _ _ (by simp only [List.length_cons] at hk; omega)

theorem applyTx_eq_spec (H : Hashing) (m : UTXOMap) (t : Transaction)
    (ht : t.Outputs.length ≤ u32) : applyTx H m t = specApplyTx H m t := by
  unfold applyTx specApplyTx removeInputs
  rw [insertOutputs_eq _ _ _ 0 (by omega)]
  rfl

theorem applyBlock_eq_spec (H : Hashing) (txs : List Transaction) (m : UTXOMap)
    (ht : ∀ t ∈ txs, t.Outputs.length ≤ u32) :
    txs.foldl (applyTx H) m = txs.foldl (specApplyTx H) m := by
  induction txs generalizing m with
  | nil => rfl
  | cons t rest ih =>
    simp only [List.foldl_cons]
    rw [applyTx_eq_spec H m t (ht t (List.mem_cons_self _ _))]
    exact ih _ (fun y hy => ht y (List.mem_cons_of_mem _ hy))

theorem deref_set (heap : List UTXOMap) (i : Nat) (v : UTXOMap) (hi : i < heap.length) :
    ((heap.set i v).get? i).getD [] = v := by
  simp [List.getElem?_set, hi]

/-! ## The walks `List` and `Slice` along the main chain -/

theorem Block_mk (b : Block) (p : Option BlockchainNode) (u : Nat) (d : Int) :
    (BlockchainNode.mk b p u d).Block = b := rfl

theorem PrevNode_mk (b : Block) (p : Option BlockchainNode) (u : Nat) (d : Int) :
    (BlockchainNode.mk b p u d).PrevNode = p := rfl

theorem Good.chain_length {conf : Config} {n : BlockchainNode} (h : Good conf n) :
    (n.chain.length : Int) = n.depth + 1 := by
  induction h with
  | genesis =>
    rw [chain_genesisNode]
    simp [genesisNode, depth_mk]
  | child b p u _ ih =>
    rw [chain_child, depth_mk, List.length_cons]
    push_cast
    rw [ih]

theorem Good.chain_depths {conf : Config} {n : BlockchainNode} (h : Good conf n) :
    n.chain.reverse.map (fun x => x.depth) = (List.range n.chain.length).map Int.ofNat := by
  induction h with
  | genesis =>
    rw [chain_genesisNode]
    simp only [genesisNode, List.reverse_cons, List.reverse_nil, List.nil_append, List.map_cons,
      List.map_nil, depth_mk, List.length_cons, List.length_nil]
    rfl
  | child b p u hp ih =>
    rw [chain_child, List.reverse_cons, List.map_append, ih, List.length_cons, List.range_succ,
      List.map_append]
    simp only [List.map_cons, List.map_nil, depth_mk]
    rw [← hp.chain_length]
    rfl

theorem Good.ListLoop_chain {conf : Config} {n : BlockchainNode} (h : Good conf n) :
    ∀ acc, ListLoop n.chain.length (some n) acc
      = some (n.chain.reverse.map (fun x => x.Block) ++ acc) := by
  induction h with
  | genesis =>
    intro acc
    rw [chain_genesisNode]
    simp [ListLoop, genesisNode, Block_mk]
  | child b p u _ ih =>
    intro acc
    rw [chain_child, List.length_cons, ListLoop, PrevNode_mk, Block_mk, ih]
    simp [Block_mk]

theorem Good.SliceLoop_chain {conf : Config} {n : BlockchainNode} (h : Good conf n) (s e : Int) :
    ∀ acc, SliceLoop s e n acc
      = ((n.chain.reverse.filter (fun x => decide (s ≤ x.depth ∧ x.depth < e))).map
          (fun x => x.Block)) ++ acc := by
  induction h with
  | genesis =>
    intro acc
    rw [chain_genesisNode]
    simp only [genesisNode, SliceLoop, List.reverse_cons, List.reverse_nil,
      List.nil_append, List.filter_cons, List.filter_nil, depth_mk]
    by_cases h1 : (0 : Int) ≥ s
    · by_cases h2 : (0 : Int) < e
      · simp [h1, h2, Block_mk]
      · simp [h1, h2]
    · simp [h1]
  | child b p u hp ih =>
    intro acc
    rw [chain_child, List.reverse_cons, List.filter_append, List.map_append]
    simp only [SliceLoop, List.filter_cons, List.filter_nil, depth_mk]
    by_cases h1 : p.depth + 1 ≥ s
    · rw [if_pos h1, ih]
      by_cases h2 : p.depth + 1 < e
      · simp [h1, h2, Block_mk]
      · simp [h1, h2]
    · rw [if_neg h1]
      have hnone : p.chain.reverse.filter (fun x => decide (s ≤ x.depth ∧ x.depth < e)) = [] := by
        rw [List.filter_eq_nil_iff]
        intro x hx
        have := hp.chain_depth_le x (List.mem_reverse.mp hx)
        simp only [decide_eq_true_eq, not_and]
        intro hs
        omega
      rw [hnone]
      simp [h1]

theorem Reachable.utxo_allocated {H : Hashing} {conf : Config} {bc : Blockchain}
    (hr : Reachable H conf bc) :
    ∀ k n, bc.blocks.get k = some n → n.utxo < bc.heap.length := by
  induction hr with
  | init =>
    intro k n hn
    simp only [New, GoMap.get] at hn
    split at hn
    · cases hn
      simp [New, genesisNode, utxo_mk]
    · cases hn
  | add bc ob _ ih =>
    cases ob with
    | none => exact ih
    | some b =>
      cases hp : bc.blocks.get b.Hdr.PrvBlkHsh with
      | none =>
        have : Add H bc (some b) = bc := by simp [Add, hp]
        rw [this]; exact ih
      | some lastNode =>
        rw [Add_known H bc b lastNode hp]
        intro k n hn
        simp only [GoMap.get_set] at hn
        simp only [List.length_set]
        split at hn
        · cases hn
          exact ih b.Hdr.PrvBlkHsh lastNode hp
        · exact ih k n hn

/-! ## The snapshot derivation of `Add`, read through lookups -/

theorem get_foldl_delete (keys : List String) (m : UTXOMap) :
    (fun k => (keys.foldl (fun acc key => acc.delete key) m).get k)
      = keys.foldl lookupErase (fun k => m.get k) := by
  induction keys generalizing m with
  | nil => rfl
  | cons key rest ih =>
    simp only [List.foldl_cons]
    rw [ih]
    congr 1
    funext k
    simp [lookupErase, GoMap.get_delete]

theorem get_removeInputs (ins : List TransactionInput) (m : UTXOMap) :
    (fun k => (removeInputs m ins).get k)
      = ins.foldl (fun acc i => lookupErase acc (MkTXOLoc i.TransactionHash i.OutputIndex))
          (fun k => m.get k) := by
  induction ins generalizing m with
  | nil => rfl
  | cons i rest ih =>
    simp only [removeInputs, List.foldl_cons] at ih ⊢
    rw [ih]
    congr 1
    funext k
    simp [lookupErase, GoMap.get_delete]

theorem get_foldl_set (h : String) (outs : List (Nat × TransactionOutput)) (m : UTXOMap) :
    (fun k => (outs.foldl (fun acc io => acc.set (MkTXOLoc h io.1) io.2) m).get k)
      = outs.foldl (fun acc io => lookupInsert acc (MkTXOLoc h io.1) io.2) (fun k => m.get k) := by
  induction outs generalizing m with
  | nil => rfl
  | cons io rest ih =>
    simp only [List.foldl_cons]
    rw [ih]
    congr 1
    funext k
    simp [lookupInsert, GoMap.get_set]

theorem get_specApplyTx (H : Hashing) (m : UTXOMap) (t : Transaction) :
    (fun k => (specApplyTx H m t).get k) = specLookupTx H (fun k => m.get k) t := by
  unfold specApplyTx specLookupTx
  rw [get_foldl_set]
  congr 1
  exact get_removeInputs t.Inputs m

theorem get_specApplyBlock (H : Hashing) (txs : List Transaction) (m : UTXOMap) :
    (fun k => (txs.foldl (specApplyTx H) m).get k)
      = specLookupBlock H (fun k => m.get k) txs := by
  induction txs generalizing m with
  | nil => rfl
  | cons t rest ih =>
    simp only [specLookupBlock, List.foldl_cons] at ih ⊢
    rw [ih, get_specApplyTx]

theorem foldl_lookupErase_apply (keys : List String) (g : String → Option TransactionOutput)
    (k : String) :
    keys.foldl lookupErase g k = if k ∈ keys then none else g k := by
  induction keys generalizing g with
  | nil => simp
  | cons key rest ih =>
    simp only [List.foldl_cons, ih, lookupErase, List.mem_cons]
    by_cases h1 : k ∈ rest
    · simp [h1]
    · by_cases h2 : key = k
      · simp [h1, h2]
      · have h3 : ¬ k = key := fun h => h2 h.symm
        simp [h1, h2, h3]

theorem foldl_lookupInsert_not_mem (h : String) (outs : List (Nat × TransactionOutput))
    (g : String → Option TransactionOutput) (k : String)
    (hk : k ∉ outs.map (fun io => MkTXOLoc h io.1)) :
    outs.foldl (fun acc io => lookupInsert acc (MkTXOLoc h io.1) io.2) g k = g k := by
  induction outs generalizing g with
  | nil => rfl
  | cons io rest ih =>
    simp only [List.map_cons, List.mem_cons, not_or] at hk
    simp only [List.foldl_cons]
    rw [ih _ hk.2]
    have h2 : ¬ MkTXOLoc h io.1 = k := fun he => hk.1 he.symm
    simp [lookupInsert, h2]

theorem specLookupTx_not_produced (H : Hashing) (g : String → Option TransactionOutput)
    (t : Transaction) (k : String) (hk : k ∉ outputKeys H t) :
    specLookupTx H g t k = if k ∈ inputKeys t then none else g k := by
  unfold specLookupTx
  rw [foldl_lookupInsert_not_mem _ _ _ _ hk]
  have := foldl_lookupErase_apply (inputKeys t) g k
  simp only [inputKeys, List.foldl_map] at this
  simpa [inputKeys] using this

theorem specLookupBlock_not_produced (H : Hashing) (txs : List Transaction)
    (g : String → Option TransactionOutput) (k : String)
    (hk : ∀ t ∈ txs, k ∉ outputKeys H t) :
    specLookupBlock H g txs k = if ∃ t ∈ txs, k ∈ inputKeys t then none else g k := by
  induction txs generalizing g with
  | nil => simp [specLookupBlock]
  | cons t rest ih =>
    simp only [specLookupBlock, List.foldl_cons] at ih ⊢
    rw [ih _ (fun y hy => hk y (List.mem_cons_of_mem _ hy)),
      specLookupTx_not_produced H g t k (hk t (List.mem_cons_self _ _))]
    by_cases h1 : ∃ y ∈ rest, k ∈ inputKeys y
    · have h2 : ∃ y ∈ t :: rest, k ∈ inputKeys y := by
        obtain ⟨y, hy, hyk⟩ := h1
        exact ⟨y, List.mem_cons_of_mem _ hy, hyk⟩
      simp [h1, h2]
    · by_cases h3 : k ∈ inputKeys t
      · have h2 : ∃ y ∈ t :: rest, k ∈ inputKeys y := ⟨t, List.mem_cons_self _ _, h3⟩
        rw [if_neg h1, if_pos h3, if_pos h2]
      · have h2 : ¬ ∃ y ∈ t :: rest, k ∈ inputKeys y := by
          rintro ⟨y, hy, hyk⟩
          rcases List.mem_cons.mp hy with rfl | hy
          · exact h3 hyk
          · exact h1 ⟨y, hy, hyk⟩
        rw [if_neg h1, if_neg h3, if_neg h2]

/-! ## Claims -/

/-- C1 (evaluation at the failing input).  After `New; Add(A); Add(B)` the node of
block A, whose parent is the genesis node, refers to a snapshot without the
output `"T1-0"` that block A produced, whereas parent snapshot minus consumed
keys union produced outputs contains it. -/
theorem C1_snapshot_not_derived_from_parent :
    Reachable demoH demoConf demoStoreAB ∧
    demoStoreAB.blocks.get (demoH.blkHash demoBlkA) = some demoNodeA ∧
    demoNodeA.PrevNode = some (genesisNode demoConf) ∧
    demoNodeA.Block = demoBlkA ∧
    (demoStoreAB.snapshot demoNodeA).get "T1-0" = none ∧
    derivedGet demoH (demoStoreAB.snapshot (genesisNode demoConf)) demoBlkA "T1-0"
      = some (NewTxOutpt 25 "M") := by
  refine ⟨Reachable.add _ _ (Reachable.add _ _ Reachable.init), ?_, rfl, rfl, ?_, ?_⟩
  · rfl
  · decide
  · decide

/-- C2 (evaluation at the failing input).  In the store built by `New`, the parent
of block A is the genesis node; `Add(A)` writes the output `"T1-0"` of block A
into the snapshot of that parent. -/
theorem C2_add_mutates_parent_snapshot :
    demoStore0.blocks.get demoBlkA.Hdr.PrvBlkHsh = some (genesisNode demoConf) ∧
    (demoStore0.snapshot (genesisNode demoConf)).get "T1-0" = none ∧
    ((Add demoH demoStore0 (some demoBlkA)).snapshot (genesisNode demoConf)).get "T1-0"
      = some (NewTxOutpt 25 "M") := by
  refine ⟨rfl, ?_, ?_⟩
  · decide
  · decide

/-- C3 (evaluation at the failing input).  In the store `New; Add(A)` the tip is
block A at depth 1.  Adding the sibling block C (parent: genesis, depth 1) keeps
the tip, yet the balance of `"Q"` on the main chain goes from 0 to 25 and the
input `"T3-0"` becomes valid. -/
theorem C3_sibling_changes_main_chain_view :
    Reachable demoH demoConf demoStoreA ∧
    demoStoreA.blocks.get demoBlkC.Hdr.PrvBlkHsh = some (genesisNode demoConf) ∧
    ¬ ((genesisNode demoConf).depth + 1 > demoStoreA.LastBlock.depth) ∧
    (Add demoH demoStoreA (some demoBlkC)).LastBlock.Block = demoStoreA.LastBlock.Block ∧
    GetBalance demoStoreA "Q" = 0 ∧
    GetBalance (Add demoH demoStoreA (some demoBlkC)) "Q" = 25 ∧
    IsInvalidInput demoStoreA
      { TransactionHash := "T3", OutputIndex := 0, UnlockingScript := "Q", Amount := 25 } = true ∧
    IsInvalidInput (Add demoH demoStoreA (some demoBlkC))
      { TransactionHash := "T3", OutputIndex := 0, UnlockingScript := "Q", Amount := 25 } = false := by
  refine ⟨Reachable.add _ _ Reachable.init, rfl, ?_, ?_, ?_, ?_, ?_, ?_⟩ <;> decide

/-- C4.  `Add` of a nil block, or of a block whose prev-block-hash is not a key of
`blocks`, returns the store it was given: known blocks, snapshots, depths, tip
and `Length()` are unchanged. -/
theorem C4_add_unknown_parent_is_noop (H : Hashing) (bc : Blockchain) (ob : Option Block)
    (h : ∀ b, ob = some b → bc.blocks.get b.Hdr.PrvBlkHsh = none) :
    Add H bc ob = bc ∧ Length (Add H bc ob) = Length bc := by
  have key : Add H bc ob = bc := by
    cases ob with
    | none => rfl
    | some b =>
      have hb := h b rfl
      simp [Add, hb]
  exact ⟨key, by rw [key]⟩

/-- C4 (witness).  Scenario S5: the orphan block and the nil block leave the store
`New; Add(A)` unchanged. -/
theorem C4_add_unknown_parent_is_noop_witness :
    demoStoreA.blocks.get demoOrphan.Hdr.PrvBlkHsh = none ∧
    (Add demoH demoStoreA (some demoOrphan) = demoStoreA ∧
      Length (Add demoH demoStoreA (some demoOrphan)) = Length demoStoreA) ∧
    (Add demoH demoStoreA none = demoStoreA ∧
      Length (Add demoH demoStoreA none) = Length demoStoreA) :=
  ⟨rfl,
   C4_add_unknown_parent_is_noop demoH demoStoreA (some demoOrphan)
     (fun b hb => by cases hb; rfl),
   C4_add_unknown_parent_is_noop demoH demoStoreA none (fun b hb => by cases hb)⟩

/-- C5.  In every store reachable from `New` by `Add` calls the tip has a depth
at least that of every node of the store; and `Add` of a block with a known
parent makes the new node the tip when its depth strictly exceeds the depth of
the current tip, and keeps the current tip otherwise (first seen wins on ties). -/
theorem C5_tip_has_maximal_depth (H : Hashing) (conf : Config) (bc : Blockchain)
    (hr : Reachable H conf bc) :
    (∀ n, InStore bc n → n.depth ≤ bc.LastBlock.depth) ∧
    (∀ b lastNode, bc.blocks.get b.Hdr.PrvBlkHsh = some lastNode →
      (Add H bc (some b)).blocks.get (H.blkHash b)
          = some (BlockchainNode.mk b (some lastNode) lastNode.utxo (lastNode.depth + 1)) ∧
      (lastNode.depth + 1 > bc.LastBlock.depth →
        (Add H bc (some b)).LastBlock
          = BlockchainNode.mk b (some lastNode) lastNode.utxo (lastNode.depth + 1)) ∧
      (¬ lastNode.depth + 1 > bc.LastBlock.depth →
        (Add H bc (some b)).LastBlock = bc.LastBlock)) := by
  refine ⟨fun n hn => InStore.depth_le hr.inv hn, ?_⟩
  intro b lastNode hp
  refine ⟨?_, ?_, ?_⟩
  · simp [Add, hp, GoMap.get_set]
  · intro hd
    simp [Add, hp, depth_mk, hd]
  · intro hd
    simp [Add, hp, depth_mk, hd]

/-- C5 (witness).  The store `New; Add(A)`: block B (depth 2) becomes the tip,
the sibling block C (depth 1, a tie) does not. -/
theorem C5_tip_has_maximal_depth_witness :
    Reachable demoH demoConf demoStoreA ∧
    (Add demoH demoStoreA (some demoBlkB)).LastBlock
      = BlockchainNode.mk demoBlkB (some demoNodeA) 0 2 ∧
    (Add demoH demoStoreA (some demoBlkC)).LastBlock = demoStoreA.LastBlock :=
  ⟨Reachable.add _ _ Reachable.init,
   ((C5_tip_has_maximal_depth demoH demoConf demoStoreA (Reachable.add _ _ Reachable.init)).2
      demoBlkB demoNodeA rfl).2.1 (by decide),
   ((C5_tip_has_maximal_depth demoH demoConf demoStoreA (Reachable.add _ _ Reachable.init)).2
      demoBlkC (genesisNode demoConf) rfl).2.2 (by decide)⟩

/-- C6 (evaluation at the failing input).  In the store `New; Add(A); Add(B)`,
where block B spent the output `"T1-0"` of block A, a second `Add(A)` puts
`"T1-0"` back into the snapshot of the tip (the node of block B), and the
main-chain balance of `"M"` goes from 0 to 25. -/
theorem C6_second_add_changes_snapshots :
    Reachable demoH demoConf demoStoreAB ∧
    demoStoreAB.LastBlock.Block = demoBlkB ∧
    (Add demoH demoStoreAB (some demoBlkA)).LastBlock.Block = demoBlkB ∧
    (demoStoreAB.snapshot demoStoreAB.LastBlock).get "T1-0" = none ∧
    ((Add demoH demoStoreAB (some demoBlkA)).snapshot demoStoreAB.LastBlock).get "T1-0"
      = some (NewTxOutpt 25 "M") ∧
    GetBalance demoStoreAB "M" = 0 ∧
    GetBalance (Add demoH demoStoreAB (some demoBlkA)) "M" = 25 := by
  refine ⟨Reachable.add _ _ (Reachable.add _ _ Reachable.init), ?_, ?_, ?_, ?_, ?_, ?_⟩ <;> decide

/-- C7.  In every store reachable from `New` by `Add` calls exactly one node has
prev-block-hash `""` and depth 0, the genesis node; every other node has a parent
and a depth equal to the depth of the parent plus one, hence at least 1; `Add`
stores the new node with the depth of its parent plus one.  When the block hash
is never empty and no block with a non-empty prev-block-hash collides with the
genesis hash, the genesis node is also the only such entry of the map `blocks`. -/
theorem C7_unique_genesis_and_depths (H : Hashing) (conf : Config) (bc : Blockchain)
    (hr : Reachable H conf bc) :
    (∃! n, InStore bc n ∧ n.Block.Hdr.PrvBlkHsh = "" ∧ n.depth = 0) ∧
    (∀ n, InStore bc n → n ≠ genesisNode conf →
      ∃ p, n.PrevNode = some p ∧ n.depth = p.depth + 1 ∧ 1 ≤ n.depth) ∧
    (∀ b lastNode, bc.blocks.get b.Hdr.PrvBlkHsh = some lastNode →
      ∃ n, (Add H bc (some b)).blocks.get (H.blkHash b) = some n ∧
        n.PrevNode = some lastNode ∧ n.depth = lastNode.depth + 1 ∧ 1 ≤ n.depth) ∧
    ((∀ b, H.blkHash b ≠ "") →
      (∀ b, H.blkHash b = H.blkHash (GenesisBlock conf) → b.Hdr.PrvBlkHsh = "") →
      ∃! k, ∃ n, bc.blocks.get k = some n ∧ n.Block.Hdr.PrvBlkHsh = "" ∧ n.depth = 0) := by
  have hinv := hr.inv
  refine ⟨?_, ?_, ?_, ?_⟩
  · refine ⟨genesisNode conf, ⟨Or.inl hinv.tip_good.genesis_mem_chain, rfl, rfl⟩, ?_⟩
    rintro n ⟨hn, _, hd⟩
    exact (InStore.good hinv hn).eq_genesis_of_depth (le_of_eq hd)
  · intro n hn hne
    have hg := InStore.good hinv hn
    cases hg with
    | genesis => exact absurd rfl hne
    | child b p u hp =>
      refine ⟨p, rfl, rfl, ?_⟩
      have := hp.depth_nonneg
      simp only [depth_mk]
      omega
  · intro b lastNode hp
    refine ⟨BlockchainNode.mk b (some lastNode) lastNode.utxo (lastNode.depth + 1), ?_, rfl, rfl, ?_⟩
    · rw [Add_known H bc b lastNode hp]
      simp [GoMap.get_set]
    · have := (hinv.blocks_good _ _ hp).depth_nonneg
      simp only [depth_mk]
      omega
  · intro hne hcoll
    refine ⟨H.blkHash (GenesisBlock conf),
      ⟨genesisNode conf, hr.genesis_entry hne hcoll, rfl, rfl⟩, ?_⟩
    rintro k ⟨n, hn, _, hd⟩
    have hg : n = genesisNode conf :=
      (hinv.blocks_good k n hn).eq_genesis_of_depth (le_of_eq hd)
    have hk := hr.keys_are_hashes k n hn
    rw [hg] at hk
    exact hk

/-- C7 (witness).  The store `New; Add(A); Add(B)`. -/
theorem C7_unique_genesis_and_depths_witness :
    Reachable demoH demoConf demoStoreAB ∧
    (∃! n, InStore demoStoreAB n ∧ n.Block.Hdr.PrvBlkHsh = "" ∧ n.depth = 0) ∧
    (∃! k, ∃ n, demoStoreAB.blocks.get k = some n ∧ n.Block.Hdr.PrvBlkHsh = "" ∧ n.depth = 0) :=
  ⟨Reachable.add _ _ (Reachable.add _ _ Reachable.init),
   (C7_unique_genesis_and_depths demoH demoConf demoStoreAB
      (Reachable.add _ _ (Reachable.add _ _ Reachable.init))).1,
   (C7_unique_genesis_and_depths demoH demoConf demoStoreAB
      (Reachable.add _ _ (Reachable.add _ _ Reachable.init))).2.2.2
      demoBlkHash_ne_empty (demoBlkHash_genesis demoConf)⟩

/-- C8.  For every configuration (the subsidy being a `uint32`), the store built
by `New` has `Length() = 1` and a single block; the genesis snapshot has exactly
one entry, keyed by the genesis transaction hash followed by `"-0"`, whose value
is the single output of the genesis coinbase; and `GetBalance(conf.GenPK)` is
`conf.InitSbsdy`. -/
theorem C8_new_store (H : Hashing) (conf : Config) (h : conf.InitSbsdy < u32) :
    Length (New H conf) = 1 ∧
    (New H conf).blocks.length = 1 ∧
    (GenesisBlock conf).Transactions = [genesisTx conf] ∧
    (genesisTx conf).Inputs = [] ∧
    (genesisTx conf).Outputs = [NewTxOutpt conf.InitSbsdy conf.GenPK] ∧
    (New H conf).snapshot (New H conf).LastBlock
      = [(H.txHash (genesisTx conf) ++ "-0", NewTxOutpt conf.InitSbsdy conf.GenPK)] ∧
    H.txHash (genesisTx conf) ++ "-0" = MkTXOLoc (H.txHash (genesisTx conf)) 0 ∧
    GetBalance (New H conf) conf.GenPK = conf.InitSbsdy := by
  refine ⟨rfl, rfl, rfl, rfl, rfl, ?_, ?_, ?_⟩
  · simp [Blockchain.snapshot, Blockchain.deref, New, genesisNode, utxo_mk, genTxKey,
      append_dash_zero]
  · simp [MkTXOLoc, append_dash_zero]
  simp [GetBalance, Blockchain.snapshot, Blockchain.deref, New, genesisNode, utxo_mk, NewTxOutpt,
    Nat.mod_eq_of_lt h]

/-- C8 (witness).  Scenario S1: `InitSbsdy = 50`, `GenPK = "P"` gives balance 50
and length 1, the single UTXO being `"T0-0"`. -/
theorem C8_new_store_witness :
    demoConf.InitSbsdy < u32 ∧
    Length (New demoH demoConf) = 1 ∧
    (New demoH demoConf).snapshot (New demoH demoConf).LastBlock
      = [("T0-0", NewTxOutpt 50 "P")] ∧
    GetBalance (New demoH demoConf) "P" = 50 :=
  ⟨by decide, (C8_new_store demoH demoConf (by decide)).1,
   (C8_new_store demoH demoConf (by decide)).2.2.2.2.2.1,
   (C8_new_store demoH demoConf (by decide)).2.2.2.2.2.2.2⟩

/-- C9 (counterexample).  The store `New(demoConfMax); Add(demoBlkOne)` is
reachable and its tip snapshot holds 4294967295 and 1 locked to `"P"`: the sum
is 4294967296 but `GetBalance("P")` is 0. -/
theorem C9_balance_counterexample :
    Reachable demoH demoConfMax demoStoreWrap ∧
    lockedSum (demoStoreWrap.snapshot demoStoreWrap.LastBlock) "P" = 4294967296 ∧
    GetBalance demoStoreWrap "P" = 0 ∧
    GetBalance demoStoreWrap "P"
      ≠ lockedSum (demoStoreWrap.snapshot demoStoreWrap.LastBlock) "P" := by
  refine ⟨Reachable.add _ _ Reachable.init, ?_, ?_, ?_⟩ <;> decide

/-- C9 (amended).  For every store and public key, `GetBalance(pk)` is the sum of
the amounts of the outputs of the tip snapshot locked to `pk`, reduced modulo
`2 ^ 32`. -/
theorem C9_balance_is_sum_mod (bc : Blockchain) (pk : String) :
    GetBalance bc pk = lockedSum (bc.snapshot bc.LastBlock) pk % u32 := by
  unfold GetBalance
  rw [GetBalance_fold pk _ 0 (by decide), Nat.zero_add]

/-- C10 (counterexample).  The store `New(demoConfHalf); Add(demoBlkBig)` is
reachable; its tip snapshot holds three outputs of 2147483649 locked to `"P"`
(the same amount, so the order of the visit does not matter).
`GetUTXOForAmt(2147483650, "P")` returns the three outputs, change 1 and true,
although the amounts of the returned set sum to 6442450947, which minus the
amount is 4294967297. -/
theorem C10_change_counterexample :
    Reachable demoH demoConfHalf demoStoreBig ∧
    (demoStoreBig.snapshot demoStoreBig.LastBlock).map (fun kv => (kv.2.Amount, kv.2.LockingScript))
      = [(2147483649, "P"), (2147483649, "P"), (2147483649, "P")] ∧
    (GetUTXOForAmt demoPrsTXOLoc demoStoreBig 2147483650 "P").2 = (1, true) ∧
    (GetUTXOForAmt demoPrsTXOLoc demoStoreBig 2147483650 "P").1.map (fun i => i.Amt)
      = [2147483649, 2147483649, 2147483649] ∧
    infoSum (GetUTXOForAmt demoPrsTXOLoc demoStoreBig 2147483650 "P").1 - 2147483650
      = 4294967297 ∧
    infoSum (GetUTXOForAmt demoPrsTXOLoc demoStoreBig 2147483650 "P").1 - 2147483650
      ≠ (GetUTXOForAmt demoPrsTXOLoc demoStoreBig 2147483650 "P").2.1 := by
  refine ⟨Reachable.add _ _ Reachable.init, ?_, ?_, ?_, ?_, ?_⟩ <;> decide

/-- C10 (amended).  If `GetUTXOForAmt(a, pk)` returns `(set, change, true)` then
the sum of the amounts of `set`, reduced modulo `2 ^ 32`, is `a + change`; hence
when that sum is below `2 ^ 32`, the sum minus `a` is `change` and `a` does not
exceed the sum. -/
theorem C10_change_is_sum_mod_minus_amount (prs : String → String × Nat) (bc : Blockchain)
    (a : Nat) (pk : String) (set : List UTXOInfo) (change : Nat)
    (h : GetUTXOForAmt prs bc a pk = (set, change, true)) :
    infoSum set % u32 = a + change ∧
    (infoSum set < u32 → a ≤ infoSum set ∧ infoSum set - a = change) := by
  have key : infoSum set % u32 = a + change := by
    unfold GetUTXOForAmt at h
    split at h
    · rename_i ha
      simp only [Prod.mk.injEq, and_true] at h
      obtain ⟨h1, h2⟩ := h
      subst h1 h2 ha
      rfl
    · exact GetUTXOForAmtLoop_sum prs a pk _ 0 [] rfl set change h
  refine ⟨key, fun hlt => ?_⟩
  rw [Nat.mod_eq_of_lt hlt] at key
  omega

/-- C10 (witness).  Scenario S3: genesis paying 50 to `"P"`, `a = 10` gives the
single UTXO of 50 (transaction `"T0"`, index 0) and change 40. -/
theorem C10_change_is_sum_mod_minus_amount_witness :
    GetUTXOForAmt demoPrsTXOLoc demoStore0 10 "P"
      = ([{ TxHsh := "T0", OutIdx := 0, UTXO := NewTxOutpt 50 "P", Amt := 50 }], 40, true) ∧
    infoSum [{ TxHsh := "T0", OutIdx := 0, UTXO := NewTxOutpt 50 "P", Amt := 50 }] % u32
      = 10 + 40 :=
  ⟨by decide,
   (C10_change_is_sum_mod_minus_amount demoPrsTXOLoc demoStore0 10 "P"
      [{ TxHsh := "T0", OutIdx := 0, UTXO := NewTxOutpt 50 "P", Amt := 50 }] 40
      (by decide)).1⟩

/-- C11 (evaluation at the failing input).  Scenario S2: on the genesis-only store
paying 50 to `"P"`, `GetUTXOForAmt(1000, "P")` returns change 0 and false, but
the list it returns holds the output of 50 collected on the way: it is not empty. -/
theorem C11_insufficient_returns_collected_utxo :
    GetUTXOForAmt demoPrsTXOLoc demoStore0 1000 "P"
      = ([{ TxHsh := "T0", OutIdx := 0, UTXO := NewTxOutpt 50 "P", Amt := 50 }], 0, false) ∧
    (GetUTXOForAmt demoPrsTXOLoc demoStore0 1000 "P").1 ≠ [] := by
  refine ⟨?_, ?_⟩ <;> decide

/-- C12 (evaluation at the failing input).  `ChkBlk` returns false for every node
and block, because its loop runs `ChkTx` on the coinbase at index 0, which
`ChkTx` rejects for its empty inputs.  The block `demoBlkValid` on the
genesis-only store has transactions, a coinbase first, a valid proof of work, a
size of 230 below `MxBlkSz = 1000`, inputs that `ChkChainsUTXO` accepts, and its
only non-coinbase transaction passes `ChkTx`. -/
theorem C12_ChkBlk_rejects_every_block :
    (∀ (P : Pkg) (addr : Nat → Nat → Nat) (n : Option Node) (b : Option Block),
      ChkBlk P addr n b = false) ∧
    demoBlkValid.Transactions.length = 2 ∧
    (demoBlkValid.Transactions.map IsCoinbase) = [true, false] ∧
    demoPkg.SatisfiesPOW demoBlkValid demoBlkValid.Hdr.DiffTarg = true ∧
    demoPkg.BlkSz demoBlkValid = 230 ∧ demoNode.MxBlkSz = 1000 ∧
    ChkChainsUTXO demoNode.Chain demoBlkValid.Transactions demoBlkValid.Hdr.PrvBlkHsh = true ∧
    demoBlkValid.Transactions.all
      (fun t => IsCoinbase t || ChkTx demoPkg demoNode (fun i => i) (some t)) = true ∧
    ChkBlk demoPkg (fun _ i => i) (some demoNode) (some demoBlkValid) = false := by
  refine ⟨ChkBlk_false, ?_, ?_, ?_, ?_, ?_, ?_, ?_, ?_⟩ <;> decide

/-- C13 (evaluation at the failing input).  On the genesis-only store, `ChkTx`
accepts `demoTxZeroOut`, which spends the genesis output and whose only output
has amount 0: no statement of `ChkTx` reads the output amounts one by one. -/
theorem C13_ChkTx_accepts_zero_output :
    ChkTx demoPkg demoNode (fun i => i) (some demoTxZeroOut) = true ∧
    demoTxZeroOut.Outputs.map (fun o => o.Amount) = [0] := by
  refine ⟨?_, ?_⟩ <;> decide

/-- C14 (evaluation at the failing input).  On the genesis-only store, `ChkTx`
accepts `demoTxDouble`, whose two inputs are distinct objects (addresses 0 and 1)
with equal fields, both spending the TXO key `"T0-0"`, an output of 50, to create
an output of 60.  The same transaction is rejected when its two inputs are one
object (same address): the map of the check is keyed by the pointer. -/
theorem C14_ChkTx_accepts_double_spend :
    ChkTx demoPkg demoNode (fun i => i) (some demoTxDouble) = true ∧
    demoTxDouble.Inputs.map (fun i => MkTXOLoc i.TransactionHash i.OutputIndex)
      = ["T0-0", "T0-0"] ∧
    (GetUTXO demoNode.Chain demoInGenesis).map (fun o => o.Amount) = some 50 ∧
    SumOutputs demoTxDouble = 60 ∧
    ChkTx demoPkg demoNode (fun _ => 7) (some demoTxDouble) = false := by
  refine ⟨?_, ?_, ?_, ?_, ?_⟩ <;> decide

/-- C15 (counterexample).  `demoTxRicher` has `sumInputs = 42949674`,
`sumOutputs = 1` and size 100: the formula gives
`max(1, 42949673 * 100 / 100) = 42949673`, but the product `fees * 100` is taken
in `uint32`, where it is 4, and `CalcPri` returns 1. -/
theorem C15_priority_counterexample :
    SumInputs demoTxRicher = 42949674 ∧ SumOutputs demoTxRicher = 1 ∧
    demoPkg.TxSz demoTxRicher = 100 ∧
    max 1 ((SumInputs demoTxRicher - SumOutputs demoTxRicher) * 100 / demoPkg.TxSz demoTxRicher)
      = 42949673 ∧
    CalcPri demoPkg (some demoTxRicher) = some 1 ∧
    CalcPri demoPkg (some demoTxRicher)
      ≠ some (max 1 ((SumInputs demoTxRicher - SumOutputs demoTxRicher) * 100
          / demoPkg.TxSz demoTxRicher)) := by
  refine ⟨?_, ?_, ?_, ?_, ?_, ?_⟩ <;> decide

/-- C15 (amended).  For every non-nil transaction with `sumInputs ≥ sumOutputs`,
a positive size and `(sumInputs − sumOutputs) * 100 < 2 ^ 32`, `CalcPri` returns
`max(1, (sumInputs − sumOutputs) * 100 / size)`; and `CalcPri` returns 0 exactly
for the nil transaction. -/
theorem C15_priority_formula (P : Pkg) (t : Transaction)
    (hs : SumOutputs t ≤ SumInputs t) (hz : 0 < P.TxSz t)
    (hm : (SumInputs t - SumOutputs t) * 100 < u32) :
    CalcPri P (some t) = some (max 1 ((SumInputs t - SumOutputs t) * 100 / P.TxSz t)) ∧
    (∀ x, CalcPri P x = some 0 ↔ x = none) := by
  constructor
  · have hz2 : P.TxSz t ≠ 0 := by omega
    simp only [CalcPri, wrap_sub_of_le _ _ (SumInputs_lt t) hs, Nat.mod_eq_of_lt hm, hz2,
      if_false]
    by_cases h0 : (SumInputs t - SumOutputs t) * 100 / P.TxSz t = 0
    · simp [h0]
    · simp only [h0, if_false]
      rw [Nat.max_eq_right (Nat.one_le_iff_ne_zero.mpr h0)]
  · intro x
    cases x with
    | none => simp [CalcPri]
    | some y =>
      simp only [CalcPri]
      split
      · simp
      · split
        · simp
        · rename_i h0
          simp only [Option.some.injEq, reduceCtorEq, iff_false]
          exact h0

/-- C15 (witness).  `demoTxSeven` has `sumInputs = 50`, `sumOutputs = 43` and size
100: its priority is `max(1, 7 * 100 / 100) = 7`. -/
theorem C15_priority_formula_witness :
    SumOutputs demoTxSeven ≤ SumInputs demoTxSeven ∧ 0 < demoPkg.TxSz demoTxSeven ∧
    (SumInputs demoTxSeven - SumOutputs demoTxSeven) * 100 < u32 ∧
    CalcPri demoPkg (some demoTxSeven) = some 7 :=
  ⟨by decide, by decide, by decide,
   (C15_priority_formula demoPkg demoTxSeven (by decide) (by decide) (by decide)).1⟩

/-- C20 (evaluation at the failing input).  With the public key bytes `0x50 0xab`
the coinbase built by `GenCBTx` is locked to the two-character string made of
these bytes, whereas the hex encoding of the key, under which the wallet looks
for its outputs, is `"50ab"`. -/
theorem C20_coinbase_locked_to_raw_key_bytes :
    (GenCBTx (fun _ => 0) (demoMiner [] 10 [80, 171]) [some demoTxSeven]).map
        (fun r => r.map (fun t => t.Outputs.map (fun o => o.LockingScript)))
      = some (some [bytesToString [80, 171]]) ∧
    (bytesToString [80, 171]).length = 2 ∧
    hexEncode [80, 171] = "50ab" ∧
    bytesToString [80, 171] ≠ hexEncode [80, 171] := by
  refine ⟨?_, ?_, ?_, ?_⟩ <;> decide

set_option maxRecDepth 100000 in
/-- C16 (counterexample).  The pool obtained from `NewTxPool` (capacity 200) by
101 calls `Add(demoTxRich)` is reachable and holds 101 transactions of priority
42949672 each: the sum of `CalcPri` over the queue is 4337916872, but `CurPri`,
a `uint32`, is 42949576. -/
theorem C16_cumulative_priority_counterexample :
    PoolReachable demoPkg demoMinerConf demoPool101 ∧
    demoPool101.Ct = 101 ∧ demoPool101.TxQ.length = 101 ∧
    CalcPri demoPkg (some demoTxRich) = some 42949672 ∧
    queuedPriSum demoPkg demoPool101.TxQ = 4337916872 ∧
    demoPool101.CurPri = 42949576 ∧
    demoPool101.CurPri ≠ queuedPriSum demoPkg demoPool101.TxQ := by
  refine ⟨PoolReachable.addAll demoPkg demoMinerConf _ _ PoolReachable.init, ?_, ?_, ?_, ?_, ?_, ?_⟩
    <;> decide

/-- C16 (amended).  In every pool reachable from `NewTxPool` by `Add` and `ChkTxs`
calls (the capacity being a `uint32`): `Ct` is the number of queued transactions
and is at most `Cap`; every queued transaction is stored with its `CalcPri`;
`CurPri` is the sum of `CalcPri` over the queued transactions reduced modulo
`2 ^ 32`; `Add` on a full pool and `Add(nil)` return the pool unchanged. -/
theorem C16_pool_invariants (P : Pkg) (c : MinerConfig) (hcap : c.TxPCap < u32) (tp : TxPool)
    (hr : PoolReachable P c tp) :
    tp.Ct = tp.TxQ.length ∧ tp.Ct ≤ tp.Cap ∧
    (∀ x ∈ tp.TxQ, CalcPri P (some x.T) = some x.P) ∧
    tp.CurPri = queuedPriSum P tp.TxQ % u32 ∧
    (¬ tp.Ct < tp.Cap → ∀ t, TxPool.Add P tp t = some tp) ∧
    TxPool.Add P tp none = some tp := by
  have hi := hr.poolInv hcap
  refine ⟨hi.ct_len, hi.ct_le, hr.pri_stored, hi.pri_sum, ?_, rfl⟩
  intro hfull t
  cases t with
  | none => rfl
  | some t => simp [TxPool.Add, hfull]

/-- C16 (witness).  The pool of capacity 1 holding `demoTxPay` (priority 10): it
is full, and a further `Add` returns it unchanged. -/
theorem C16_pool_invariants_witness :
    demoMinerConfOne.TxPCap < u32 ∧
    PoolReachable demoPkg demoMinerConfOne demoPoolFull ∧
    demoPoolFull.Ct = 1 ∧ demoPoolFull.CurPri = 10 ∧
    demoPoolFull.CurPri = queuedPriSum demoPkg demoPoolFull.TxQ % u32 ∧
    TxPool.Add demoPkg demoPoolFull (some demoTxRich) = some demoPoolFull :=
  ⟨by decide,
   PoolReachable.addAll demoPkg demoMinerConfOne [demoTxPay] _ PoolReachable.init,
   by decide, by decide,
   (C16_pool_invariants demoPkg demoMinerConfOne (by decide) demoPoolFull
      (PoolReachable.addAll demoPkg demoMinerConfOne [demoTxPay] _ PoolReachable.init)).2.2.2.1,
   (C16_pool_invariants demoPkg demoMinerConfOne (by decide) demoPoolFull
      (PoolReachable.addAll demoPkg demoMinerConfOne [demoTxPay] _ PoolReachable.init)).2.2.2.2.1
      (by decide) (some demoTxRich)⟩

/-- C17 (counterexample).  The pool of capacity 1 holding `demoTxPay` is reachable
and full, with `CurPri = 10`.  `Add(demoTxPay)` returns it unchanged, and the
following `ChkTxs([demoTxPay])` removes the queued entry: `CurPri` ends at 0. -/
theorem C17_add_then_remove_counterexample :
    PoolReachable demoPkg demoMinerConfOne demoPoolFull ∧
    demoPoolFull.CurPri = 10 ∧
    TxPool.Add demoPkg demoPoolFull (some demoTxPay) = some demoPoolFull ∧
    (TxPool.ChkTxs demoPkg demoPoolFull [demoTxPay]).map (fun tp => tp.CurPri) = some 0 := by
  refine ⟨PoolReachable.addAll demoPkg demoMinerConfOne [demoTxPay] _ PoolReachable.init,
    ?_, ?_, ?_⟩ <;> decide

/-- C17 (amended).  For every reachable pool and every transaction `T` that is not
already queued: whenever `Add(T)` and then `ChkTxs([T])` return, `CurPri` after
them is its value before the `Add`. -/
theorem C17_add_then_remove_restores_priority (P : Pkg) (c : MinerConfig)
    (tp tp1 tp2 : TxPool) (T : Transaction)
    (hr : PoolReachable P c tp) (hnew : ∀ x ∈ tp.TxQ, x.T ≠ T)
    (h1 : TxPool.Add P tp (some T) = some tp1)
    (h2 : TxPool.ChkTxs P tp1 [T] = some tp2) :
    tp2.CurPri = tp.CurPri := by
  have hC := hr.curPri_lt
  have hu := u32_eq
  rcases TxPool.Add_cases P tp tp1 T h1 with ⟨_, rfl⟩ | ⟨_, p, hp, rfl⟩
  · have hrm := Heap.Rmv_absent tp1.TxQ T hnew
    rcases TxPool.ChkTxs_cases P tp1 tp2 [T] h2 with ⟨_, rfl⟩ | ⟨hne, _, _, _⟩
    · rfl
    · exact absurd hrm hne
  · have hrm := Heap.Rmv_Add_absent tp.TxQ p T hnew
    rcases TxPool.ChkTxs_cases P _ tp2 [T] h2 with ⟨he, _⟩ | ⟨_, pr, hpr, rfl⟩
    · rw [hrm] at he
      cases he
    · rw [hrm] at hpr
      have hpr2 := priorityRemovedLoop_eq P [T] 0 pr u32_pos hpr
      simp only [List.map_cons, List.map_nil, List.sum_cons, List.sum_nil, Nat.add_zero,
        Nat.zero_add, priOf_of_CalcPri P T p hp] at hpr2
      have hp2 := CalcPri_lt P T p hp
      simp only
      rw [hpr2]
      rw [hu] at hC hp2 ⊢
      omega

/-- C17 (witness).  The empty pool of capacity 200 and `demoTxPay` (priority 10):
`CurPri` goes from 0 to 10 and back to 0. -/
theorem C17_add_then_remove_restores_priority_witness :
    TxPool.Add demoPkg (NewTxPool demoMinerConf) (some demoTxPay)
      = some { CurPri := 10, PriLim := 1, TxQ := [{ P := 10, T := demoTxPay }], Ct := 1, Cap := 200 } ∧
    TxPool.ChkTxs demoPkg
        { CurPri := 10, PriLim := 1, TxQ := [{ P := 10, T := demoTxPay }], Ct := 1, Cap := 200 }
        [demoTxPay]
      = some (NewTxPool demoMinerConf) ∧
    (NewTxPool demoMinerConf).CurPri = (NewTxPool demoMinerConf).CurPri :=
  ⟨by decide, by decide,
   C17_add_then_remove_restores_priority demoPkg demoMinerConf (NewTxPool demoMinerConf)
     { CurPri := 10, PriLim := 1, TxQ := [{ P := 10, T := demoTxPay }], Ct := 1, Cap := 200 }
     (NewTxPool demoMinerConf) demoTxPay PoolReachable.init
     (by intro x hx; simp [NewTxPool] at hx) (by decide) (by decide)⟩

/-- C18 (counterexample).  The queue holds the single transaction `demoTxPay` of
size 100 and `BlkSz = 200`: `100 + 100` does not exceed 200, yet
`NewMiningPool` returns no transaction, its test being `blkSz < BlkSz`. -/
theorem C18_mining_pool_counterexample :
    demoPkg.TxSz demoTxPay = 100 ∧ demoMinerConf.BlkSz = 200 ∧
    100 + sizeSum demoPkg [demoTxPay] ≤ demoMinerConf.BlkSz ∧
    NewMiningPool demoPkg (demoMiner [{ P := 10, T := demoTxPay }] 0 [80]) = [] := by
  refine ⟨?_, ?_, ?_, ?_⟩ <;> decide

/-- C18 (amended).  `NewMiningPool` returns a prefix of the queue, in queue order:
the first `k` transactions, where for every `1 ≤ j ≤ k` the first `j` sizes plus
100, as a `uint32` running total, stay strictly below `BlkSz`, and where the
transaction at index `k`, if any, would bring the running total to `BlkSz` or
more; it is not skipped, nothing behind it is taken. -/
theorem C18_mining_pool_longest_fitting_prefix (P : Pkg) (m : Miner) :
    ∃ k, k ≤ m.TxP.TxQ.length ∧
      NewMiningPool P m = (m.TxP.TxQ.take k).map (fun r => r.T) ∧
      (∀ j, 1 ≤ j → j ≤ k →
        (100 + sizeSum P ((m.TxP.TxQ.take j).map (fun r => r.T))) % u32 < m.Conf.BlkSz) ∧
      (k < m.TxP.TxQ.length →
        ¬ (100 + sizeSum P ((m.TxP.TxQ.take (k + 1)).map (fun r => r.T))) % u32
            < m.Conf.BlkSz) := by
  obtain ⟨k, hk, heq, hfits, hstop⟩ :=
    NewMiningPoolLoop_spec P m.Conf.BlkSz m.TxP.TxQ 100 []
  exact ⟨k, hk, by simpa [NewMiningPool] using heq, hfits, hstop⟩

/-- C19 (counterexample).  Chain length 0, `InitSubsdy = 50`, and two
transactions of fee `2 ^ 31` each: `mintReward + fees` is `50 + 4294967296`, but
the fees are accumulated in `uint32` and the coinbase output is 50. -/
theorem C19_coinbase_amount_counterexample :
    halvings (demoMiner [] 0 [80]) = 0 ∧ mintReward (demoMiner [] 0 [80]) = 50 ∧
    plainFees [demoTxHalf, demoTxHalf] = 4294967296 ∧
    (GenCBTx (fun _ => 0) (demoMiner [] 0 [80]) [some demoTxHalf, some demoTxHalf]).map
        (fun r => r.map (fun t => t.Outputs.map (fun o => o.Amount)))
      = some (some [50]) ∧
    50 ≠ mintReward (demoMiner [] 0 [80]) + plainFees [demoTxHalf, demoTxHalf] := by
  refine ⟨?_, ?_, ?_, ?_, ?_⟩ <;> decide

/-- C19 (amended).  For every non-empty list of non-nil transactions, when
`SubsdyHlvRt > 0` and `halvings = min(chainLength / SubsdyHlvRt, MxHlvgs) < 32`,
`GenCBTx` returns a transaction with no inputs and exactly one output, whose
amount is `mintReward + fees` in `uint32` arithmetic, with
`mintReward = InitSubsdy >> halvings` and every fee `sumInputs − sumOutputs` and
their sum taken modulo `2 ^ 32`; this is `mintReward + Σ (sumInputs − sumOutputs)`
whenever no transaction has `sumInputs < sumOutputs` and the total stays below
`2 ^ 32`.  `GenCBTx` returns nil when the list is empty. -/
theorem C19_coinbase_amount (impl : Nat → Nat) (m : Miner) (txs : List Transaction)
    (hne : txs ≠ []) (hrate : 0 < m.Conf.SubsdyHlvRt) (hhalv : halvings m < 32) :
    GenCBTx impl m (txs.map some)
      = some (some
          { Version := m.Conf.Ver,
            Inputs := [],
            Outputs := [{ Amount := (mintReward m + wrapFees txs) % u32,
                          LockingScript := bytesToString m.PubKey, Liminal := false }],
            LockTime := 0 }) ∧
    ((∀ t ∈ txs, SumOutputs t ≤ SumInputs t) → mintReward m + plainFees txs < u32 →
      (mintReward m + wrapFees txs) % u32 = mintReward m + plainFees txs) ∧
    GenCBTx impl m [] = some none := by
  refine ⟨?_, ?_, ?_⟩
  · have hlen : (txs.map some).length ≠ 0 := by
      cases txs with
      | nil => exact absurd rfl hne
      | cons a l => simp
    have hrate2 : m.Conf.SubsdyHlvRt ≠ 0 := by omega
    have hmin : (if m.ChnLen / m.Conf.SubsdyHlvRt > m.Conf.MxHlvgs then m.Conf.MxHlvgs
        else m.ChnLen / m.Conf.SubsdyHlvRt) = halvings m := by
      unfold halvings
      split <;> omega
    have hpow : pow2u32 impl (halvings m) = 2 ^ halvings m := by simp [pow2u32, hhalv]
    have hpos : 2 ^ halvings m ≠ 0 := by positivity
    simp only [GenCBTx, hlen, if_false, GenCBTxFees_some txs 0 u32_pos, hrate2, hmin, hpow, hpos,
      Nat.zero_add]
    simp only [mintReward, wrapFees, Nat.shiftRight_eq_div_pow]
  · intro hall hlt
    have hw : wrapFees txs = plainFees txs := by
      unfold wrapFees
      rw [wrapFees_eq_plainFees txs hall]
      exact Nat.mod_eq_of_lt (by omega)
    rw [hw]
    exact Nat.mod_eq_of_lt hlt
  · simp [GenCBTx]

/-- C19 (witness).  Scenario S4: chain length 10 with `SubsdyHlvRt = 10`,
`InitSubsdy = 50` and one transaction of fee 7 give a minting reward of 25 and a
coinbase output of 32. -/
theorem C19_coinbase_amount_witness :
    [demoTxSeven] ≠ [] ∧ 0 < (demoMiner [] 10 [80]).Conf.SubsdyHlvRt ∧
    halvings (demoMiner [] 10 [80]) < 32 ∧
    mintReward (demoMiner [] 10 [80]) = 25 ∧ plainFees [demoTxSeven] = 7 ∧
    (mintReward (demoMiner [] 10 [80]) + wrapFees [demoTxSeven]) % u32 = 32 ∧
    GenCBTx (fun _ => 0) (demoMiner [] 10 [80]) ([demoTxSeven].map some)
      = some (some
          { Version := 1,
            Inputs := [],
            Outputs := [{ Amount := (mintReward (demoMiner [] 10 [80]) + wrapFees [demoTxSeven]) % u32,
                          LockingScript := bytesToString [80], Liminal := false }],
            LockTime := 0 }) :=
  ⟨by decide, by decide, by decide, by decide, by decide, by decide,
   (C19_coinbase_amount (fun _ => 0) (demoMiner [] 10 [80]) [demoTxSeven]
      (by decide) (by decide) (by decide)).1⟩

/-- C21 (evaluation at the failing input).  A wallet of key `0x50` owns the genesis
output of 50.  For the request `{0x51, amount 50, fee 5}` it emits a transaction
with one input of 50 and one output of 50: the inputs do not reach
`amount + fee = 55` and `sumInputs − sumOutputs` is 0, not 5.  For the request
`{0x51, amount 10, fee 5}` it emits `demoTxWallet`, whose inputs hold 50 and
whose outputs 10 and 40 leave no fee either. -/
theorem C21_request_fee_is_ignored :
    (Wallet.HndlTxReq demoPrsTXOLoc demoWallet (some { PubK := [81], Amt := 50, Fee := 5 })).SendTx
      = [NewTx 1 [NewTxInpt "T0" 0 "50" 50] [NewTxOutpt 50 "51"] 0] ∧
    SumInputs (NewTx 1 [NewTxInpt "T0" 0 "50" 50] [NewTxOutpt 50 "51"] 0) = 50 ∧
    ¬ (50 + 5 ≤ SumInputs (NewTx 1 [NewTxInpt "T0" 0 "50" 50] [NewTxOutpt 50 "51"] 0)) ∧
    SumInputs (NewTx 1 [NewTxInpt "T0" 0 "50" 50] [NewTxOutpt 50 "51"] 0)
      - SumOutputs (NewTx 1 [NewTxInpt "T0" 0 "50" 50] [NewTxOutpt 50 "51"] 0) = 0 ∧
    (Wallet.HndlTxReq demoPrsTXOLoc demoWallet (some { PubK := [81], Amt := 10, Fee := 5 })).SendTx
      = [demoTxWallet] ∧
    SumInputs demoTxWallet - SumOutputs demoTxWallet = 0 := by
  refine ⟨?_, ?_, ?_, ?_, ?_, ?_⟩ <;> decide

/-- C22 (evaluation at the failing input).  The wallet has emitted `demoTxWallet`
(liminal at priority 0, sent once).  After `HndlBlk` of a block that contains
`demoTxWallet`, the transaction is in the liminal queue again, at priority 0,
and it has been sent a second time. -/
theorem C22_confirmed_tx_is_requeued_and_resent :
    demoWalletSent.LmnlTxs.TxQ = [{ P := 0, T := demoTxWallet }] ∧
    demoWalletSent.SendTx = [demoTxWallet] ∧
    demoTxWallet ∈ demoBlkConfirm.Transactions ∧
    (demoWalletSent.LmnlTxs.ChkTxs demoBlkConfirm.Transactions).2 = ([], [demoTxWallet]) ∧
    (Wallet.HndlBlk demoWalletSent (some demoBlkConfirm)).LmnlTxs.TxQ
      = [{ P := 0, T := demoTxWallet }] ∧
    (Wallet.HndlBlk demoWalletSent (some demoBlkConfirm)).SendTx
      = [demoTxWallet, demoTxWallet] := by
  refine ⟨?_, ?_, ?_, ?_, ?_, ?_⟩ <;> decide

/-- C23 (evaluation at the failing input).  Scenario S7: the wallet has emitted
`demoTxWallet` (priority 0), `TxRplyThresh = 2`, and three safe-depth blocks
without it arrive.  After two blocks its priority is 2; the third call evicts it
(`ChkTxs` returns it as its first value), and `HndlBlk` leaves the liminal queue
empty and sends nothing: the channel still holds the single original send. -/
theorem C23_evicted_tx_is_dropped :
    demoWalletSent.SendTx = [demoTxWallet] ∧
    demoTxWallet ∉ demoBlkA.Transactions ∧
    (Wallet.HndlBlk (Wallet.HndlBlk demoWalletSent (some demoBlkA)) (some demoBlkA)).LmnlTxs.TxQ
      = [{ P := 2, T := demoTxWallet }] ∧
    ((Wallet.HndlBlk (Wallet.HndlBlk demoWalletSent (some demoBlkA))
        (some demoBlkA)).LmnlTxs.ChkTxs demoBlkA.Transactions).2 = ([demoTxWallet], []) ∧
    (Wallet.HndlBlk (Wallet.HndlBlk (Wallet.HndlBlk demoWalletSent (some demoBlkA))
        (some demoBlkA)) (some demoBlkA)).LmnlTxs.TxQ = [] ∧
    (Wallet.HndlBlk (Wallet.HndlBlk (Wallet.HndlBlk demoWalletSent (some demoBlkA))
        (some demoBlkA)) (some demoBlkA)).SendTx = [demoTxWallet] := by
  refine ⟨?_, ?_, ?_, ?_, ?_, ?_⟩ <;> decide

/-- C24 (counterexample).  A queue holding one transaction at priority 1 with
threshold 2, and an empty list: one `ChkTxs` brings the priority to 2; a second
`ChkTxs` brings it to 3 and evicts the transaction, leaving the queue empty,
whereas one `ChkTxs` followed by `IncAll` leaves the transaction at priority 3. -/
theorem C24_twice_counterexample :
    (demoLiminal.ChkTxs []).1.TxQ = [{ P := 2, T := demoTxPay }] ∧
    ((demoLiminal.ChkTxs []).1.ChkTxs []).1.TxQ = [] ∧
    Heap.IncAll (demoLiminal.ChkTxs []).1.TxQ = [{ P := 3, T := demoTxPay }] ∧
    ((demoLiminal.ChkTxs []).1.ChkTxs []).1.TxQ ≠ Heap.IncAll (demoLiminal.ChkTxs []).1.TxQ := by
  refine ⟨?_, ?_, ?_, ?_⟩ <;> decide

/-- C24 (amended).  For every `LiminalTxs` state and transaction list, applying
`ChkTxs(txs)` twice leaves the queue as applying it once, then incrementing
every remaining priority by 1 (`IncAll`), then evicting the entries whose
priority exceeds `TxRplyThresh`; when no incremented priority exceeds the
threshold this is `ChkTxs(txs)` once followed by `IncAll`. -/
theorem C24_twice_is_once_then_IncAll_then_eviction (l : LiminalTxs) (txs : List Transaction) :
    ((l.ChkTxs txs).1.ChkTxs txs).1.TxQ
      = ((Heap.IncAll (l.ChkTxs txs).1.TxQ).RemAbv l.TxRplyThresh).1 ∧
    ((l.ChkTxs txs).1.ChkTxs txs).1.TxRplyThresh = l.TxRplyThresh ∧
    ((∀ x ∈ Heap.IncAll (l.ChkTxs txs).1.TxQ, x.P ≤ l.TxRplyThresh) →
      ((l.ChkTxs txs).1.ChkTxs txs).1.TxQ = Heap.IncAll (l.ChkTxs txs).1.TxQ) := by
  have habs : ∀ x ∈ (l.ChkTxs txs).1.TxQ, x.T ∉ txs := by
    simp only [LiminalTxs.ChkTxs]
    exact Heap.RemAbv_absent _ _ _ (Heap.IncAll_absent _ _ (Heap.Rmv_kept_absent _ _))
  have hkeep := Heap.Rmv_kept_of_absent _ txs habs
  have h1 : ((l.ChkTxs txs).1.ChkTxs txs).1.TxQ
      = ((Heap.IncAll (l.ChkTxs txs).1.TxQ).RemAbv l.TxRplyThresh).1 := by
    conv_lhs => rw [LiminalTxs.ChkTxs]
    simp only [hkeep]
    rfl
  refine ⟨h1, rfl, ?_⟩
  intro hle
  rw [h1]
  exact Heap.RemAbv_kept_of_le _ _ hle

/-- C27 (counterexample).  On the genesis-only store, whose single output holds
50, `ChkTx` accepts `demoTxHint`: its input references that output with an
amount hint of 1000 and its output pays 900.  The referenced UTXO hold 50, less
than the 900 of the outputs. -/
theorem C27_hint_counterexample :
    ChkTx demoPkg demoNode (fun i => i) (some demoTxHint) = true ∧
    referencedSum demoNode.Chain demoTxHint = 50 ∧
    (demoTxHint.Outputs.map (fun o => o.Amount)).sum = 900 ∧
    ¬ (referencedSum demoNode.Chain demoTxHint > (demoTxHint.Outputs.map (fun o => o.Amount)).sum) := by
  refine ⟨?_, ?_, ?_, ?_⟩ <;> decide

/-- C27 (amended).  For every store and every transaction accepted by `ChkTx`,
the `uint32` sum of the amount hints carried by its inputs (`SumInputs`) is
greater than the `uint32` sum of its output amounts (`SumOutputs`), and every
input references a UTXO of the main-chain tip snapshot. -/
theorem C27_accepted_tx_hints_exceed_outputs (P : Pkg) (n : Node) (addr : Nat → Nat)
    (t : Transaction) (h : ChkTx P n addr (some t) = true) :
    SumInputs t > SumOutputs t ∧
    (∀ i ∈ t.Inputs, (GetUTXO n.Chain i).isSome = true) := by
  simp only [ChkTx] at h
  split at h
  · cases h
  · split at h
    · cases h
    · rename_i hs
      split at h
      · cases h
      · refine ⟨not_not.mp hs, ?_⟩
        intro i hi
        rw [← inputPtrs_snd addr t] at hi
        obtain ⟨x, hx, rfl⟩ := List.mem_map.mp hi
        have := ChkTxLoop_valid P n.Chain _ _ h x hx
        simpa [IsInvalidInput, GetUTXO] using this

/-- C27 (witness).  `demoTxPay` is accepted on the genesis-only store: its hint is
50 and its output 40. -/
theorem C27_accepted_tx_hints_exceed_outputs_witness :
    ChkTx demoPkg demoNode (fun i => i) (some demoTxPay) = true ∧
    SumInputs demoTxPay > SumOutputs demoTxPay :=
  ⟨by decide,
   (C27_accepted_tx_hints_exceed_outputs demoPkg demoNode (fun i => i) demoTxPay (by decide)).1⟩

/-- C28 (evaluation at the failing input).  A miner with `PriLim = 0` and an empty
pool: `PriMet()` holds, `NewMiningPool()` is empty, `GenCBTx` returns nil for the
empty slice, and the slice handed to `block.New` is the single nil transaction.
The same happens when the only queued transaction does not fit under `BlkSz`. -/
theorem C28_candidate_block_starts_with_nil :
    demoMinerIdle.TxP.PriMet = true ∧
    NewMiningPool demoPkg demoMinerIdle = [] ∧
    GenCBTx (fun _ => 0) demoMinerIdle [] = some none ∧
    MineTxs demoPkg (fun _ => 0) demoMinerIdle = some (some [none]) ∧
    demoMinerTight.TxP.PriMet = true ∧
    NewMiningPool demoPkg demoMinerTight = [] ∧
    MineTxs demoPkg (fun _ => 0) demoMinerTight = some (some [none]) := by
  refine ⟨?_, ?_, ?_, ?_, ?_, ?_, ?_⟩ <;> decide

/-- C29 (evaluation at the failing input).  On the store built by `New`, the hash
`"nowhere"` is unknown: `IndexOf` returns -1, but `Get` reads the field `Block`
through the nil node pointer and panics.  For the known genesis hash `Get`
returns the genesis block. -/
theorem C29_Get_panics_on_unknown_hash :
    Reachable demoH demoConf demoStore0 ∧
    demoStore0.blocks.get "nowhere" = none ∧
    IndexOf demoStore0 "nowhere" = -1 ∧
    Get demoStore0 "nowhere" = none ∧
    Get demoStore0 (demoH.blkHash (GenesisBlock demoConf)) = some (some (GenesisBlock demoConf)) := by
  refine ⟨Reachable.init, rfl, ?_, ?_, ?_⟩ <;> decide

/-- C25.  `CalcNonce` is a total function: the search ends after at most `NncLim`
iterations.  When no iteration below `NncLim` observes a cancellation, it
returns true iff some nonce below `NncLim` makes the block satisfy the proof of
work against `InitPOWD`, and on true the header nonce of the block is the least
such nonce (nonces are tried in increasing order from 0).  When an iteration `c`
observes the cancellation and no nonce below `c` satisfies the proof of work, it
returns false. -/
theorem C25_nonce_search (P : Pkg) (m : Miner) (cancelled : Nat → Bool) (b : Block) :
    ((∀ k, k < m.Conf.NncLim → cancelled k = false) →
      (((CalcNonce P m cancelled b).1 = true ↔
          ∃ n, n < m.Conf.NncLim ∧ P.SatisfiesPOW (setNonce b n) m.Conf.InitPOWD = true) ∧
       ((CalcNonce P m cancelled b).1 = true →
          ∃ n, n < m.Conf.NncLim ∧ (CalcNonce P m cancelled b).2 = setNonce b n ∧
            (CalcNonce P m cancelled b).2.Hdr.Nonce = n ∧
            P.SatisfiesPOW (setNonce b n) m.Conf.InitPOWD = true ∧
            ∀ k, k < n → P.SatisfiesPOW (setNonce b k) m.Conf.InitPOWD = false))) ∧
    (∀ c, cancelled c = true →
      (∀ k, k < c → P.SatisfiesPOW (setNonce b k) m.Conf.InitPOWD = false) →
      (CalcNonce P m cancelled b).1 = false) := by
  constructor
  · intro hc
    obtain ⟨h1, h2⟩ := CalcNonceLoop_found P m.Conf.InitPOWD cancelled m.Conf.NncLim 0 b
      (fun k _ hk => hc k (by omega))
    constructor
    · unfold CalcNonce
      rw [h1]
      constructor
      · rintro ⟨n, _, hn, hp⟩
        exact ⟨n, by omega, hp⟩
      · rintro ⟨n, hn, hp⟩
        exact ⟨n, Nat.zero_le _, by omega, hp⟩
    · intro h
      obtain ⟨n, _, hn, he, hp, hleast⟩ := h2 h
      refine ⟨n, by omega, he, ?_, hp, fun k hk => hleast k (Nat.zero_le _) hk⟩
      unfold CalcNonce
      rw [he]
      rfl
  · intro c hc hno
    exact CalcNonceLoop_cancelled P m.Conf.InitPOWD cancelled m.Conf.NncLim 0 c b (Nat.zero_le _) hc
      (fun k _ hk => hno k hk)

/-- C25 (witness).  With the target `"0fff"` and nonce limit 100, an uncancelled
search on block A returns true with nonce 4, the least nonce whose successor is
a multiple of 5; a search cancelled at iteration 2 returns false. -/
theorem C25_nonce_search_witness :
    CalcNonce demoPkgPow demoMinerPow (fun _ => false) demoBlkA = (true, setNonce demoBlkA 4) ∧
    (CalcNonce demoPkgPow demoMinerPow (fun _ => false) demoBlkA).1 = true ∧
    (∃ n, n < demoMinerPow.Conf.NncLim ∧
      demoPkgPow.SatisfiesPOW (setNonce demoBlkA n) demoMinerPow.Conf.InitPOWD = true) ∧
    (CalcNonce demoPkgPow demoMinerPow (fun k => decide (2 ≤ k)) demoBlkA).1 = false :=
  ⟨by decide, by decide,
   ((C25_nonce_search demoPkgPow demoMinerPow (fun _ => false) demoBlkA).1
      (fun _ _ => rfl)).1.mp (by decide),
   (C25_nonce_search demoPkgPow demoMinerPow (fun k => decide (2 ≤ k)) demoBlkA).2 2
      (by decide) (by decide)⟩

/-- C26.  For every store and every block `b` whose parent `P` is known (the map of
`P` being allocated, and no transaction having more outputs than a `uint32`
index can number), immediately after `Add(b)` the node stored under the hash of
`b` holds `b`, has depth `P.depth + 1` and back-reference `P`, and its snapshot
is the result of starting from the snapshot of `P` before the call and, for each
transaction in block order, removing every TXO key referenced by its inputs and
then inserting each output `i` under `MkTXOLoc(txHash, i)`.  The snapshot is
pinned down by its lookups, through `specLookupBlock`, which uses no operation
of the map model: in particular a key that no transaction of `b` produces is
absent from the new snapshot when an input of `b` references it, and keeps the
value it had in the snapshot of `P` otherwise. -/
theorem C26_added_node (H : Hashing) (bc : Blockchain) (b : Block) (lastNode : BlockchainNode)
    (hp : bc.blocks.get b.Hdr.PrvBlkHsh = some lastNode)
    (hv : lastNode.utxo < bc.heap.length)
    (hout : ∀ t ∈ b.Transactions, t.Outputs.length ≤ u32) :
    ∃ n, (Add H bc (some b)).blocks.get (H.blkHash b) = some n ∧
      n.Block = b ∧ n.depth = lastNode.depth + 1 ∧ n.PrevNode = some lastNode ∧
      (Add H bc (some b)).snapshot n = specApplyBlock H (bc.snapshot lastNode) b ∧
      (∀ k, ((Add H bc (some b)).snapshot n).get k
        = specLookupBlock H (fun k => (bc.snapshot lastNode).get k) b.Transactions k) ∧
      (∀ k, (∀ t ∈ b.Transactions, k ∉ outputKeys H t) →
        (∃ t ∈ b.Transactions, k ∈ inputKeys t) →
        ((Add H bc (some b)).snapshot n).get k = none) ∧
      (∀ k, (∀ t ∈ b.Transactions, k ∉ outputKeys H t) →
        (¬ ∃ t ∈ b.Transactions, k ∈ inputKeys t) →
        ((Add H bc (some b)).snapshot n).get k = (bc.snapshot lastNode).get k) := by
  have hsnap : (Add H bc (some b)).snapshot
        (BlockchainNode.mk b (some lastNode) lastNode.utxo (lastNode.depth + 1))
      = specApplyBlock H (bc.snapshot lastNode) b := by
    rw [Add_known H bc b lastNode hp]
    simp only [Blockchain.snapshot, Blockchain.deref, utxo_mk]
    rw [deref_set _ _ _ hv]
    exact applyBlock_eq_spec H b.Transactions _ hout
  have hlook : ∀ k, ((Add H bc (some b)).snapshot
        (BlockchainNode.mk b (some lastNode) lastNode.utxo (lastNode.depth + 1))).get k
      = specLookupBlock H (fun k => (bc.snapshot lastNode).get k) b.Transactions k := by
    intro k
    rw [hsnap]
    exact congrFun (get_specApplyBlock H b.Transactions (bc.snapshot lastNode)) k
  refine ⟨BlockchainNode.mk b (some lastNode) lastNode.utxo (lastNode.depth + 1), ?_, rfl, rfl,
    rfl, hsnap, hlook, ?_, ?_⟩
  · rw [Add_known H bc b lastNode hp]
    simp [GoMap.get_set]
  · intro k hnp hc
    rw [hlook, specLookupBlock_not_produced H _ _ k hnp, if_pos hc]
  · intro k hnp hc
    rw [hlook, specLookupBlock_not_produced H _ _ k hnp, if_neg hc]

/-- C26 (witness).  `Add(B)` on the store `New; Add(A)`, where block B spends the
output `"T1-0"` of block A and pays 24 to `"Q"`: the parent of B is the node of
block A, whose snapshot before the call is `{T0-0, T1-0}`; the node of block B
has depth 2 and the snapshot `{T0-0, T2-0}`, in which the spent key `"T1-0"` is
absent, the produced key `"T2-0"` holds the output of 24 and the untouched key
`"T0-0"` keeps the genesis output. -/
theorem C26_added_node_witness :
    demoStoreA.blocks.get demoBlkB.Hdr.PrvBlkHsh = some demoNodeA ∧
    demoStoreA.snapshot demoNodeA = [("T0-0", NewTxOutpt 50 "P"), ("T1-0", NewTxOutpt 25 "M")] ∧
    demoBlkB.Transactions.map inputKeys = [["T1-0"]] ∧
    demoBlkB.Transactions.map (outputKeys demoH) = [["T2-0"]] ∧
    specApplyBlock demoH (demoStoreA.snapshot demoNodeA) demoBlkB
      = [("T0-0", NewTxOutpt 50 "P"), ("T2-0", NewTxOutpt 24 "Q")] ∧
    specLookupBlock demoH (fun k => (demoStoreA.snapshot demoNodeA).get k)
      demoBlkB.Transactions "T1-0" = none ∧
    specLookupBlock demoH (fun k => (demoStoreA.snapshot demoNodeA).get k)
      demoBlkB.Transactions "T2-0" = some (NewTxOutpt 24 "Q") ∧
    specLookupBlock demoH (fun k => (demoStoreA.snapshot demoNodeA).get k)
      demoBlkB.Transactions "T0-0" = some (NewTxOutpt 50 "P") ∧
    (∃ n, (Add demoH demoStoreA (some demoBlkB)).blocks.get (demoH.blkHash demoBlkB) = some n ∧
      n.Block = demoBlkB ∧ n.depth = demoNodeA.depth + 1 ∧ n.PrevNode = some demoNodeA ∧
      (Add demoH demoStoreA (some demoBlkB)).snapshot n
        = [("T0-0", NewTxOutpt 50 "P"), ("T2-0", NewTxOutpt 24 "Q")] ∧
      ((Add demoH demoStoreA (some demoBlkB)).snapshot n).get "T1-0" = none ∧
      ((Add demoH demoStoreA (some demoBlkB)).snapshot n).get "T2-0" = some (NewTxOutpt 24 "Q") ∧
      ((Add demoH demoStoreA (some demoBlkB)).snapshot n).get "T0-0"
        = some (NewTxOutpt 50 "P")) := by
  have hspec : specApplyBlock demoH (demoStoreA.snapshot demoNodeA) demoBlkB
      = [("T0-0", NewTxOutpt 50 "P"), ("T2-0", NewTxOutpt 24 "Q")] := by decide
  have h1 : specLookupBlock demoH (fun k => (demoStoreA.snapshot demoNodeA).get k)
      demoBlkB.Transactions "T1-0" = none := by decide
  have h2 : specLookupBlock demoH (fun k => (demoStoreA.snapshot demoNodeA).get k)
      demoBlkB.Transactions "T2-0" = some (NewTxOutpt 24 "Q") := by decide
  have h0 : specLookupBlock demoH (fun k => (demoStoreA.snapshot demoNodeA).get k)
      demoBlkB.Transactions "T0-0" = some (NewTxOutpt 50 "P") := by decide
  obtain ⟨n, hn, hb, hd, hprev, hs, hl, _, _⟩ :=
    C26_added_node demoH demoStoreA demoBlkB demoNodeA rfl (by decide) (by decide)
  refine ⟨rfl, by decide, by decide, by decide, hspec, h1, h2, h0, n, hn, hb, hd, hprev,
    ?_, ?_, ?_, ?_⟩
  · rw [hs, hspec]
  · rw [hl, h1]
  · rw [hl, h2]
  · rw [hl, h0]

/-- C30.  In every store reachable from `New` by `Add` calls, for all integers `s`
and `e`: `Slice(s, e)` returns the blocks of the main chain (the tip and its
ancestors, genesis first) whose depth `d` satisfies `s ≤ d < e`, in the order of
the main chain; the depths along the main chain are `0, 1, 2, …`, so this order
is by increasing depth and the `i`-th node has depth `i`; `List()` returns the
blocks of the whole main chain, which has `Length()` elements; and `List()` is
`Slice(0, Length())`. -/
theorem C30_list_and_slice (H : Hashing) (conf : Config) (bc : Blockchain)
    (hr : Reachable H conf bc) :
    (∀ s e : Int, Slice bc s e
      = ((mainChain bc).filter (fun n => decide (s ≤ n.depth ∧ n.depth < e))).map
          (fun n => n.Block)) ∧
    (mainChain bc).map (fun n => n.depth) = (List.range (mainChain bc).length).map Int.ofNat ∧
    bc.List = some ((mainChain bc).map (fun n => n.Block)) ∧
    (((mainChain bc).map (fun n => n.Block)).length : Int) = Length bc ∧
    bc.List = some (Slice bc 0 (Length bc)) := by
  have hg := hr.inv.tip_good
  have hlen := hg.chain_length
  have hslice : ∀ s e : Int, Slice bc s e
      = ((mainChain bc).filter (fun n => decide (s ≤ n.depth ∧ n.depth < e))).map
          (fun n => n.Block) := by
    intro s e
    simpa [Slice, mainChain] using hg.SliceLoop_chain s e []
  have hlist : bc.List = some ((mainChain bc).map (fun n => n.Block)) := by
    have hn : (bc.LastBlock.depth + 1).toNat = bc.LastBlock.chain.length := by
      rw [← hlen]
      exact Int.toNat_ofNat _
    simpa [Blockchain.List, mainChain, hn] using hg.ListLoop_chain []
  refine ⟨hslice, ?_, hlist, ?_, ?_⟩
  · simpa [mainChain] using hg.chain_depths
  · simpa [mainChain, Length] using hlen
  · rw [hlist, hslice]
    congr 2
    symm
    rw [List.filter_eq_self]
    intro x hx
    have hx2 : x ∈ bc.LastBlock.chain := by simpa [mainChain] using hx
    have h1 := (hg.chain_good x hx2).depth_nonneg
    have h2 := hg.chain_depth_le x hx2
    simp only [Length, decide_eq_true_eq]
    omega

/-- C30 (witness).  The store `New; Add(A); Add(B)`: `List()` is genesis, A, B,
`Slice(1, 3)` is A, B and `Slice(-5, 1)` is the genesis block. -/
theorem C30_list_and_slice_witness :
    Reachable demoH demoConf demoStoreAB ∧
    demoStoreAB.List = some [GenesisBlock demoConf, demoBlkA, demoBlkB] ∧
    Slice demoStoreAB 1 3 = [demoBlkA, demoBlkB] ∧
    Slice demoStoreAB (-5) 1 = [GenesisBlock demoConf] ∧
    Length demoStoreAB = 3 ∧
    demoStoreAB.List = some (Slice demoStoreAB 0 (Length demoStoreAB)) :=
  ⟨Reachable.add _ _ (Reachable.add _ _ Reachable.init), by decide, by decide, by decide,
   by decide,
   (C30_list_and_slice demoH demoConf demoStoreAB
      (Reachable.add _ _ (Reachable.add _ _ Reachable.init))).2.2.2.2⟩

end BrunoCoin
